import Mathlib

/-!
Verification development for the dairy.js herd-structure simulator
(`dairy.herd`, file src/unnamed/part_004) and grouping engine
(`dairy.group`, file src/src/dairy.body.js).

Conventions of the shallow embedding:

* JavaScript numbers are modelled as exact rationals (`ℚ`).  `Math.round`
  is `round : ℚ → ℤ` (both are `⌊x + 1/2⌋`), `Math.floor` is `Int.floor`.
* The one place where the herd code can observe `NaN`/`Infinity`/non-number
  values is the option-merging loop of `dairy.herd.get`; there we use an
  explicit JavaScript value type (`JsNum`, `JsVal`).
* `Array.prototype.sort` with a numeric comparator is a stable sort; it is
  modelled with `List.insertionSort`, which is stable and sorts by the
  relation given to it.
* `pow(1 - yc, 1 / ac)` (the compounded monthly survival rate of young
  stock) is irrational in general; it is carried as an opaque rational
  parameter `surv` of the simulation, which no claim depends on.
* Stateful loops become explicit state passing; `while` loops become
  fuel-indexed recursions returning `Option` (`none` = fuel exhausted).
-/

namespace DairyJs

/-! ### JavaScript values, for the option merging of `dairy.herd.get`

Source, part_004 lines 97-101:
```
for (var prop in options) {
  if (options.hasOwnProperty(prop))
    cons[prop] = (typeof options[prop] === 'number' && !isNaN(options[prop])) ? options[prop] : cons[prop];
}
```
-/

/-- A JavaScript number: `NaN`, `Infinity`, `-Infinity`, or a finite value. -/
inductive JsNum where
  | nan : JsNum
  | posInf : JsNum
  | negInf : JsNum
  | fin : ℚ → JsNum
deriving DecidableEq


/-- A JavaScript value as seen by the `typeof v === 'number'` test: either a
number or anything else (string, boolean, undefined, object, ...). -/
inductive JsVal where
  | number : JsNum → JsVal
  | nonNumber : JsVal
deriving DecidableEq


/-- One step of the option-merging loop of `dairy.herd.get` (part_004 line
100) for a single configuration parameter: `cur` is the current value of
`cons[prop]`, the argument is `options[prop]` (`none` when the property is
absent from `options`).  The guard is exactly
`typeof options[prop] === 'number' && !isNaN(options[prop])`. -/
def mergeParam (cur : JsNum) : Option JsVal → JsNum
  | some (.number n) => if n = .nan then cur else n
  | _ => cur


/-- The property asserted by claim C8: any value that is not a *finite*
number is ignored (default retained), and every finite numeric value
overwrites the parameter. -/
def FiniteMergeClaim : Prop :=
  ∀ (cur : JsNum) (v : JsVal),
    ((∀ q : ℚ, v ≠ .number (.fin q)) → mergeParam cur (some v) = cur) ∧
    (∀ q : ℚ, v = .number (.fin q) → mergeParam cur (some v) = .fin q)


/-! ### Herd simulator: constants, state, and one monthly step

Source: part_004.  `IT_MIN = 1e2`, `IT_MAX = 1e6`,
`WEEKS_IN_MONTH = 30.5 / 7`.
-/

def IT_MIN : ℕ := 100


def IT_MAX : ℕ := 1000000


def WEEKS_IN_MONTH : ℚ := 30.5 / 7


/-- The configuration constants of `dairy.herd` (source object `cons`),
plus the derived monthly survival factor `surv` which stands for the
irrational `pow(1 - youngStockCullRate, 1 / ageFirstCalving)`.
`ageFirstCalving` is kept as a natural number because the source uses it
as an array index (`young[ac - 1]`). -/
structure HerdParams where
  ci : ℚ
  hs : ℚ
  dp : ℚ
  gp : ℚ
  sb : ℚ
  yc : ℚ
  fc : ℚ
  ac : ℕ
  rr : ℚ
  surv : ℚ


/-- The default configuration (source `cons`, part_004 lines 38-48),
with `surv` left to the caller. -/
def herdDefaults (surv : ℚ) : HerdParams :=
  ⟨12, 100, 2, 9, 0.07, 0.155, 0.47, 24, 0.30, surv⟩


/-- One cow cohort (source `vars.cows[i]`). -/
structure Cow where
  no : ℚ
  lac : ℕ
  dry : Bool
  WG : ℚ
  WL : ℚ
  age : ℚ
deriving DecidableEq


/-- The mutable simulation state (source `vars` plus the loop-local
`avg_lac` and iteration counter).  The debug-only `vars.sim` history is
not modelled; no claim mentions it and nothing reads it back. -/
structure HerdState where
  cows : List Cow
  young : List ℚ
  heifersBought : List ℚ
  heifersSold : List ℚ
  lac : List ℚ
  noCows : ℚ
  avgLac : Option ℚ
  its : ℕ


/-- Update of a single cow cohort inside the cows loop (part_004 lines
177-214): replacement, ageing, lactation/gestation bookkeeping, drying
off and calving.  Returns the updated cohort and its contribution to
`newFemaleCalves` (nonzero only when the cohort calves). -/
def cowUpdate (P : HerdParams) (c : Cow) : Cow × ℚ :=
  if 0 < c.no then
    let no := c.no * (1 - P.rr / 12)
    let age := c.age + 1
    if c.dry then
      let WG := c.WG + WEEKS_IN_MONTH
      if P.gp * WEEKS_IN_MONTH < WG then
        (⟨no, c.lac + 1, false, 0, 0, age⟩, no * (1 - P.sb) * P.fc)
      else
        (⟨no, c.lac, true, WG, c.WL, age⟩, 0)
    else
      let WL := c.WL + WEEKS_IN_MONTH
      let WG :=
        if 0 < c.WG then c.WG + WEEKS_IN_MONTH
        else if (P.ci - P.gp) * WEEKS_IN_MONTH < WL then WEEKS_IN_MONTH else c.WG
      if (P.ci - P.dp) * WEEKS_IN_MONTH < WL then
        (⟨no, c.lac, true, WG, 0, age⟩, 0)
      else
        (⟨no, c.lac, false, WG, WL, age⟩, 0)
  else (c, 0)


/-- The cows loop (part_004 lines 175-215): updates every cohort in order,
collecting the calves contributed by calving cohorts and the new total
cow count (`vars.noCows`, summed over the updated `no` fields). -/
def cowsUpdate (P : HerdParams) : List Cow → List Cow × ℚ × ℚ
  | [] => ([], 0, 0)
  | c :: cs =>
    let u := cowUpdate P c
    let rest := cowsUpdate P cs
    (u.1 :: rest.1, u.2 + rest.2.1, u.1.no + rest.2.2)


/-- The heifer recruitment step (part_004 lines 218-228).  Arguments are
the configured herd size, the current cow count and the number of
heifers popped from the oldest young-stock cohort; the result is
`(noHeifersToHerd, heifersSold, heifersBought)` exactly as the source
computes them:
```
var noHeifersToHerd = (noCows < hs) ? ((hs - noCows < noHeifers) ? (hs - noCows) : noHeifers) : 0;
heifersSold.unshift(noHeifers - noHeifersToHerd);
var noHeifersBought = 0;
if (noHeifersToHerd < hs - noCows) {
  noHeifersToHerd = hs - noCows;
  noHeifersBought = hs - noCows + noHeifersToHerd;
}
```
-/
def heiferStep (hs noCows noHeifers : ℚ) : ℚ × ℚ × ℚ :=
  let toHerd0 := if noCows < hs then (if hs - noCows < noHeifers then hs - noCows else noHeifers) else 0
  let sold := noHeifers - toHerd0
  if toHerd0 < hs - noCows then
    (hs - noCows, sold, (hs - noCows) + (hs - noCows))
  else
    (toHerd0, sold, 0)


/-- Adds `v` to position `i` of a rational list, padding with zeros as the
source's sparse-array accumulation `vars.lac[l] = (vars.lac[l] || 0) + no`
does (part_004 lines 246-250). -/
def addAt : List ℚ → ℕ → ℚ → List ℚ
  | [], 0, v => [v]
  | [], n + 1, v => 0 :: addAt [] n v
  | x :: xs, 0, v => (x + v) :: xs
  | x :: xs, n + 1, v => x :: addAt xs n v


/-- Cows per lactation number (source `vars.lac`): position `l` holds the
total `no` of cohorts with `lac = l + 1`. -/
def lacCounts (cows : List Cow) : List ℚ :=
  cows.foldl (fun acc c => addAt acc (c.lac - 1) c.no) []


/-- The weighted lactation sum `lacSum = Σ lac[l] * (l + 1)` (part_004
lines 252-256), accumulated from position `i`. -/
def weightedLacSum : ℕ → List ℚ → ℚ
  | _, [] => 0
  | i, x :: xs => x * (i + 1) + weightedLacSum (i + 1) xs


/-- The loop-exit test of the herd simulator (part_004 lines 266-269):
```
if ((its > IT_MIN && round(noCows) === hs && Math.round(avg_lac * 1e6) === round(lacSum / noCows * 1e6))
  || its > IT_MAX || round(noCows) === 0 || isNaN(noCows)) converged = true;
```
`avgPrev` is the previous iteration's `avg_lac` (`none` on the first
iteration, where the variable is still `undefined` and the comparison
with `NaN` is false).  `noCowsNaN` mirrors `isNaN(vars.noCows)`; with
exact rational arithmetic the step function always passes `false`. -/
def herdExit (its : ℕ) (noCows lacSum : ℚ) (avgPrev : Option ℚ) (hs : ℚ) (noCowsNaN : Bool) : Bool :=
  (decide (IT_MIN < its) && decide ((round noCows : ℚ) = hs) &&
    (match avgPrev with
     | none => false
     | some a => decide (round (a * 1000000) = round (lacSum / noCows * 1000000))))
  || decide (IT_MAX < its) || decide (round noCows = 0) || noCowsNaN


/-- One iteration of the simulation loop (part_004 lines 156-274).
Returns the new state together with the `converged` flag computed at the
end of the iteration. -/
def herdStep (P : HerdParams) (s : HerdState) : HerdState × Bool :=
  let young1 := s.young.map (fun y => y * P.surv)
  let calves0 :=
    if 0 < young1.getLastD 0 then young1.getD (P.ac - 1) 0 * (1 - P.sb) * P.fc else 0
  let cu := cowsUpdate P s.cows
  let calves := calves0 + cu.2.1
  let noCows1 := cu.2.2
  let noHeifers := young1.getLastD 0
  let young2 := young1.dropLast
  let hf := heiferStep P.hs noCows1 noHeifers
  let cows2 : List Cow := ⟨hf.1, 1, false, 0, 0, (P.ac : ℚ)⟩ :: cu.1
  let noCows2 := noCows1 + hf.1
  let young3 := calves * P.surv :: young2
  let lac := lacCounts cows2
  let lacSum := weightedLacSum 0 lac
  let exit := herdExit s.its noCows2 lacSum s.avgLac P.hs false
  (⟨cows2, young3, hf.2.2 :: s.heifersBought, hf.2.1 :: s.heifersSold, lac,
    noCows2, some (lacSum / noCows2), s.its + 1⟩, exit)


/-- The simulation loop, fuel-indexed: runs `herdStep` until the converged
flag is set, returning the state at exit (`none` only when the fuel runs
out before the loop exits). -/
def simLoop (P : HerdParams) : ℕ → HerdState → Option HerdState
  | 0, _ => none
  | fuel + 1, s =>
    let r := herdStep P s
    if r.2 then some r.1 else simLoop P fuel r.1


/-- The three parity buckets of the snapshot sampler (part_004 lines
301-303):
```
herd.cowsPerLac[0] = round(vars.lac[0]);
herd.cowsPerLac[1] = round(vars.lac[1]);
herd.cowsPerLac[2] = hs - (herd.cowsPerLac[0] + herd.cowsPerLac[1]);
```
-/
def cowsPerLac (hs : ℚ) (lac : List ℚ) : List ℚ :=
  [(round (lac.getD 0 0) : ℚ), (round (lac.getD 1 0) : ℚ),
   hs - ((round (lac.getD 0 0) : ℚ) + (round (lac.getD 1 0) : ℚ))]


/-- The heifer semantics asserted by claim C3: writing `S` for the
shortfall `herdSize - currentCowCount` and `A` for the available heifers,
when `S > 0` the moved count is `min S A`, the sold count is
`A - min S A` and the bought count is `max 0 (S - A)`; when `S ≤ 0`
nothing is moved, all of `A` is sold and nothing is bought. -/
def HeiferClaim : Prop :=
  ∀ hs noCows A : ℚ,
    heiferStep hs noCows A =
      (if 0 < hs - noCows then min (hs - noCows) A else 0,
       A - (if 0 < hs - noCows then min (hs - noCows) A else 0),
       if 0 < hs - noCows then max 0 (hs - noCows - A) else 0)


/-- The convergence test in the words of claim C4: the loop is to exit
exactly when, after more than the minimum iteration count, the cow count
rounds to the herd size and the average lactation rounded to six decimal
digits equals the previous step's rounded value; or the iteration
ceiling is exceeded; or the count rounds to zero; or the count is NaN. -/
def HerdExitSpec (its : ℕ) (noCows lacSum : ℚ) (avgPrev : Option ℚ) (hs : ℚ)
    (noCowsNaN : Bool) : Prop :=
  (IT_MIN < its ∧ (round noCows : ℚ) = hs ∧
    ∃ a, avgPrev = some a ∧ round (a * 1000000) = round (lacSum / noCows * 1000000))
  ∨ IT_MAX < its ∨ round noCows = 0 ∨ noCowsNaN = true


/-! ### Grouping engine: data model

Source: dairy.body.js, `dairy.group` (lines 783-1078).  The `distance`
helper takes a square root; every use of it is either squared again
(`pow(distance(..), 2)`) or only compared against another distance, and
`sqrt` is strictly monotone on nonnegative arguments, so the embedding
works with squared distances (`dist2`) throughout.  `Array.prototype.sort`
with the source's three-way comparators is stable and is modelled with
`List.insertionSort` on the corresponding `≤` relation, which is stable
for equal keys.
-/

/-- A data point (source: an element of the caller's `data` array after
`get` attached `x`/`y`): coordinates plus the assigned cluster id, which
is `none` before the first Lloyd pass touches the point (the source
tests `typeof points[p].k !== 'number'`). -/
structure Pt where
  x : ℚ
  y : ℚ
  k : Option ℕ
deriving DecidableEq


instance : Inhabited Pt := ⟨⟨0, 0, none⟩⟩


/-- A centroid (source: the objects built by `kmeansplusplus` and the
final re-run): coordinates, cluster id `k`, and the member count
`items` written by every Lloyd pass (0 before the first pass). -/
structure Cent where
  x : ℚ
  y : ℚ
  k : ℕ
  items : ℕ
deriving DecidableEq


instance : Inhabited Cent := ⟨⟨0, 0, 0, 0⟩⟩


/-- Squared euclidean distance between `(px, py)` and `(cx, cy)`. -/
def dist2 (px py cx cy : ℚ) : ℚ := (px - cx) ^ 2 + (py - cy) ^ 2


/-- Comparator of the Lloyd pass's `sortBy(centroids, c => distance(c, p))`
(dairy.body.js lines 970-972), on squared distances. -/
def distLe (p : Pt) (a b : Cent) : Prop := dist2 p.x p.y a.x a.y ≤ dist2 p.x p.y b.x b.y


instance (p : Pt) : DecidableRel (distLe p) :=
  fun _ _ => inferInstanceAs (Decidable (_ ≤ _))


instance (p : Pt) : IsTotal Cent (distLe p) := ⟨fun _ _ => le_total _ _⟩


instance (p : Pt) : IsTrans Cent (distLe p) := ⟨fun _ _ _ => le_trans⟩


/-- Comparator of the descending-`x` centroid sort (dairy.body.js line
938-940, comparator `b.x - a.x`). -/
def xDesc (a b : Cent) : Prop := b.x ≤ a.x


instance : DecidableRel xDesc := fun _ _ => inferInstanceAs (Decidable (_ ≤ _))


instance : IsTotal Cent xDesc := ⟨fun a b => le_total b.x a.x⟩


instance : IsTrans Cent xDesc := ⟨fun _ _ _ h1 h2 => le_trans h2 h1⟩


/-- Comparator of `doNormalize`'s sort by `x` (dairy.body.js line 834). -/
def ptLeX (a b : Pt) : Prop := a.x ≤ b.x


instance : DecidableRel ptLeX := fun _ _ => inferInstanceAs (Decidable (_ ≤ _))


instance : IsTotal Pt ptLeX := ⟨fun _ _ => le_total _ _⟩


instance : IsTrans Pt ptLeX := ⟨fun _ _ _ => le_trans⟩


/-- Comparator of `doNormalize`'s sort by `y` (dairy.body.js line 842). -/
def ptLeY (a b : Pt) : Prop := a.y ≤ b.y


instance : DecidableRel ptLeY := fun _ _ => inferInstanceAs (Decidable (_ ≤ _))


instance : IsTotal Pt ptLeY := ⟨fun _ _ => le_total _ _⟩


instance : IsTrans Pt ptLeY := ⟨fun _ _ _ => le_trans⟩


/-- Comparator of the result sort of `get` (dairy.body.js lines
1052-1054, comparator `a.sum - b.sum`). -/
def resLe (a b : ℚ × List (ℚ × ℚ)) : Prop := a.1 ≤ b.1


instance : DecidableRel resLe := fun _ _ => inferInstanceAs (Decidable (_ ≤ _))


instance : IsTotal (ℚ × List (ℚ × ℚ)) resLe := ⟨fun _ _ => le_total _ _⟩


instance : IsTrans (ℚ × List (ℚ × ℚ)) resLe := ⟨fun _ _ _ => le_trans⟩


/-- The `sortBy(centroids, c => distance(c, p))[0]` selection of the
Lloyd pass (dairy.body.js lines 970-974): the stable sort by distance
puts the first centroid (in array order) attaining the minimal distance
at the head. -/
def closest (p : Pt) (cents : List Cent) : Cent :=
  (List.insertionSort (distLe p) cents).headI


/-- The assignment phase of one Lloyd pass (dairy.body.js lines 967-990):
every point is attached to its closest centroid's `k`; the returned flag
is the negation of the source's `converged` flag, i.e. `true` when some
point was unassigned or changed cluster. -/
def passAssign (cents : List Cent) : List Pt → List Pt × Bool
  | [] => ([], false)
  | p :: ps =>
    let k := (closest p cents).k
    let rest := passAssign cents ps
    (⟨p.x, p.y, some k⟩ :: rest.1, (!decide (p.k = some k)) || rest.2)


/-- The members of cluster `j` among the (just assigned) points. -/
def members (pts : List Pt) (j : ℕ) : List Pt :=
  pts.filter (fun p => decide (p.k = some j))


/-- The centroid-update phase of one Lloyd pass (dairy.body.js lines
992-999): position `j` of the centroid array becomes the mean of the
points assigned to cluster `j` when there are any (`sums[k].items > 0`),
and keeps its coordinates otherwise; `items` is always overwritten with
the member count. -/
def updateCents (pts : List Pt) : ℕ → List Cent → List Cent
  | _, [] => []
  | j, c :: cs =>
    let mem := members pts j
    let n : ℕ := mem.length
    (if 0 < n then (⟨(mem.map Pt.x).sum / n, (mem.map Pt.y).sum / n, c.k, n⟩ : Cent)
     else ⟨c.x, c.y, c.k, n⟩) :: updateCents pts (j + 1) cs


/-- One full Lloyd pass: assignment followed by centroid update, plus the
changed flag. -/
def kmeansPass (pts : List Pt) (cents : List Cent) : List Pt × List Cent × Bool :=
  let a := passAssign cents pts
  (a.1, updateCents a.1 0 cents, a.2)


/-- The Lloyd iteration loop (`while (!converged)`, dairy.body.js lines
957-1000), fuel-indexed: repeats `kmeansPass` until a pass changes no
assignment, returning the final points and centroids. -/
def kmeansLoop : ℕ → List Pt → List Cent → Option (List Pt × List Cent)
  | 0, _, _ => none
  | fuel + 1, pts, cents =>
    let r := kmeansPass pts cents
    if r.2.2 then kmeansLoop fuel r.1 r.2.1 else some (r.1, r.2.1)


/-- `sumSquaredDifferences` (dairy.body.js lines 808-825): the total of
squared coordinate differences between each point and the centroid at
array position `point.k`. -/
def sumSquaredDifferences (pts : List Pt) (cents : List Cent) : ℚ :=
  (pts.map (fun p =>
    let c := cents.getD (p.k.getD 0) default
    (p.x - c.x) ^ 2 + (p.y - c.y) ^ 2)).sum


/-- `doNormalize` (dairy.body.js lines 829-856): sort the caller's array
by `x` and read off min/max `x`, re-sort it by `y` and read off min/max
`y`, then overwrite every record's coordinates with their min-max
normalized values, leaving the array sorted by (pre-normalization) `y`.
In exact arithmetic a degenerate axis (`max = min`) normalizes to `0`
(JavaScript would produce `NaN`). -/
def doNormalize (pts : List Pt) : List Pt :=
  let sortedX := List.insertionSort ptLeX pts
  let xmin := sortedX.headI.x
  let xmax := (sortedX.getLastD default).x
  let sortedY := List.insertionSort ptLeY sortedX
  let ymin := sortedY.headI.y
  let ymax := (sortedY.getLastD default).y
  sortedY.map (fun p => ⟨(p.x - xmin) / (xmax - xmin), (p.y - ymin) / (ymax - ymin), p.k⟩)


/-! ### k-means++ seeding with an explicit randomness oracle

Source: `kmeansplusplus` (dairy.body.js lines 860-948).  Each call to
`Math.random()` is replaced by a value supplied by an oracle; theorems
quantify over all oracles, i.e. over every outcome of the random draws.
`ntries = 2 + round(log(ks))` involves the natural logarithm, which has
no exact rational value; the oracle carries the try count instead.
-/

/-- Oracle for one `kmeansplusplus` call: `first` is the index drawn by
`floor(random() * ps)` for the initial centroid; `rnds k i` is the
`random()` value of try `i` while choosing centroid `k`; `ntries` is the
source's `2 + round(log(ks))`. -/
structure KppOracle where
  first : ℕ
  rnds : ℕ → ℕ → ℚ
  ntries : ℕ


/-- The inner scan of a k-means++ try (dairy.body.js lines 896-902):
walk the `D` array subtracting entries from `rndVal` until
`rndVal <= D[n]`; if no entry stops the scan the returned index is the
array length, as in the source where the loop runs off the end. -/
def scanIdx : List ℚ → ℚ → ℕ
  | [], _ => 0
  | d :: ds, rnd => if rnd ≤ d then 0 else scanIdx ds (rnd - d) + 1


/-- One k-means++ try (dairy.body.js lines 893-917): pick the candidate
index by the weighted scan, and compute the candidate's resulting total
`tmpDsum` of squared distances to the nearest chosen centroid. -/
def kppTry (pts : List Pt) (D : List ℚ) (Dsum : ℚ) (r : ℚ) : ℚ × ℕ :=
  let rnd : ℚ := (⌊r * Dsum⌋ : ℤ)
  let n := scanIdx D rnd
  let q := pts.getD n default
  let tmpD := List.zipWith (fun p d => min d (dist2 q.x q.y p.x p.y)) pts D
  (tmpD.sum, n)


/-- The try loop for one new centroid (dairy.body.js lines 891-918): keep
the try with the smallest `tmpDsum`; the source's `bestDsum = -1`
sentinel (every real `tmpDsum` is a sum of squares, hence nonnegative)
is modelled with `Option`. -/
def kppTries (pts : List Pt) (D : List ℚ) (Dsum : ℚ) (rk : ℕ → ℚ) (ntries : ℕ) :
    Option (ℚ × ℕ) :=
  (List.range ntries).foldl
    (fun best i =>
      let t := kppTry pts D Dsum (rk i)
      match best with
      | none => some t
      | some b => if t.1 < b.1 then some t else some b)
    none


/-- The centroid-growing loop of `kmeansplusplus` (dairy.body.js lines
889-935), choosing `count` further centroids starting at cluster id `k`,
threading the `D` array and `Dsum`. -/
def kppGrow (pts : List Pt) (o : KppOracle) : ℕ → ℕ → List Cent → List ℚ → ℚ → List Cent
  | 0, _, cents, _, _ => cents
  | count + 1, k, cents, D, Dsum =>
    match kppTries pts D Dsum (o.rnds k) o.ntries with
    | none => cents
    | some (bestDsum, bestIdx) =>
      let q := pts.getD bestIdx default
      let D2 := List.zipWith (fun p d => min d (dist2 q.x q.y p.x p.y)) pts D
      kppGrow pts o count (k + 1) (cents ++ [(⟨q.x, q.y, k, 0⟩ : Cent)]) D2 bestDsum


/-- The final relabeling of `kmeansplusplus` (dairy.body.js lines
943-944): `centroids[c].k = c`. -/
def relabelCents : ℕ → List Cent → List Cent
  | _, [] => []
  | i, c :: cs => ⟨c.x, c.y, i, c.items⟩ :: relabelCents (i + 1) cs


/-- `kmeansplusplus` (dairy.body.js lines 860-948): first centroid at the
oracle's uniformly drawn point, `ks - 1` further weighted choices, then
the stable sort by descending `x` and the relabeling `k := index`. -/
def kmeansplusplus (pts : List Pt) (ks : ℕ) (o : KppOracle) : List Cent :=
  let p0 := pts.getD o.first default
  let D := pts.map (fun p => dist2 p0.x p0.y p.x p.y)
  let grown := kppGrow pts o (ks - 1) 1 [⟨p0.x, p0.y, 0, 0⟩] D D.sum
  relabelCents 0 (List.insertionSort xDesc grown)


/-! ### The multi-restart driver `dairy.group.get`

Source: dairy.body.js lines 1004-1072.  The optional copying of
caller-named attributes onto `x`/`y` (lines 1015-1022) is identity in
this model, where points already carry `x`/`y`.  The per-restart
results record the seed coordinates (before Lloyd's iteration mutates
the centroid objects) and the converged distortion.
-/

/-- Rebuilds centroids from the stored seed coordinates of the best run
(dairy.body.js lines 1057-1065): fresh objects with `k = index`. -/
def rebuildCents : ℕ → List (ℚ × ℚ) → List Cent
  | _, [] => []
  | k, c :: cs => ⟨c.1, c.2, k, 0⟩ :: rebuildCents (k + 1) cs


/-- The restart loop of `get` (dairy.body.js lines 1027-1049): `count`
remaining runs, `run` the current index; threads the (mutated) points
and accumulates `(distortion, seed coordinates)` per run in order. -/
def runsLoop (ks : ℕ) (o : ℕ → KppOracle) (fuel : ℕ) :
    ℕ → ℕ → List Pt → List (ℚ × List (ℚ × ℚ)) →
    Option (List Pt × List (ℚ × List (ℚ × ℚ)))
  | 0, _, pts, acc => some (pts, acc)
  | count + 1, run, pts, acc =>
    let cents := kmeansplusplus pts ks (o run)
    let seeds := cents.map (fun c => (c.x, c.y))
    match kmeansLoop fuel pts cents with
    | none => none
    | some (pts2, cents2) =>
      runsLoop ks o fuel count (run + 1) pts2
        (acc ++ [(sumSquaredDifferences pts2 cents2, seeds)])


/-- `dairy.group.get` (dairy.body.js lines 1004-1072): optional
normalization, `runs` restarts, stable sort of the results by
distortion, one final Lloyd re-run from the best run's original seed,
returning the final distortion together with the final state of the
caller's point array. -/
def groupGet (data : List Pt) (ks runs : ℕ) (normalize : Bool) (o : ℕ → KppOracle)
    (fuel : ℕ) : Option (ℚ × List Pt) :=
  let pts0 := if normalize then doNormalize data else data
  match runsLoop ks o fuel runs 0 pts0 [] with
  | none => none
  | some (pts1, results) =>
    let best := (List.insertionSort resLe results).headI
    match kmeansLoop fuel pts1 (rebuildCents 0 best.2) with
    | none => none
    | some (pts2, cents2) => some (sumSquaredDifferences pts2 cents2, pts2)


/-! ### Termination measure for Lloyd's iteration

The loop of `kmeans` terminates because every pass that changes some
assignment strictly decreases the pair (distortion, sum of assigned
cluster ids) lexicographically: reassignment never increases any
point's distance to its centroid, the mean update never increases the
distortion, and a point that moves at *equal* distance moves to a
strictly smaller cluster id (the stable sort picks the first minimal
centroid).  Since the measure is a function of the assignment vector
and there are finitely many assignment vectors, the loop exits.
-/

/-- Position `i` of the centroid array carries cluster id `i` — true for
every centroid list the source ever passes to `kmeans` (`kmeansplusplus`
relabels `k := index`, the final re-run builds `k := index`). -/
def centsIdx (cents : List Cent) : Prop :=
  ∀ i, i < cents.length → (cents.getD i default).k = i


/-- Sum of the assigned cluster ids of a point list. -/
def sumKs (pts : List Pt) : ℕ := (pts.map (fun p => p.k.getD 0)).sum


/-- A throwaway centroid list of the right length; the distortion after
an update does not depend on the pre-update coordinates. -/
def dummyCents (ks : ℕ) : List Cent := List.replicate ks default


/-- The distortion of an assignment: distance of every point to the mean
of its cluster (computed by updating a dummy centroid list). -/
def phiM (ks : ℕ) (pts : List Pt) : ℚ :=
  sumSquaredDifferences pts (updateCents pts 0 (dummyCents ks))


/-- Strict lexicographic order on (distortion, id sum). -/
def lexLt (a b : ℚ × ℕ) : Prop := a.1 < b.1 ∨ (a.1 = b.1 ∧ a.2 < b.2)


instance (a b : ℚ × ℕ) : Decidable (lexLt a b) := by
  unfold lexLt
  infer_instance


/-- The termination measure of one Lloyd state. -/
def measureK (ks : ℕ) (pts : List Pt) : ℚ × ℕ := (phiM ks pts, sumKs pts)


/-- Overwrites the assignments of a point list with the given cluster
ids (positionally). -/
def withKs : List Pt → List ℕ → List Pt
  | [], _ => []
  | _ :: _, [] => []
  | p :: ps, j :: js => ⟨p.x, p.y, some j⟩ :: withKs ps js


/-- All assignment vectors of length `n` with entries below `ks`. -/
def allVecs : ℕ → ℕ → List (List ℕ)
  | 0, _ => [[]]
  | n + 1, ks => ((List.range ks).map (fun j => (allVecs n ks).map (fun v => j :: v))).flatten


/-- How many assignment vectors have a strictly smaller measure than the
current one: the rank that decreases at every changing pass. -/
def rankM (ks : ℕ) (pts : List Pt) : ℕ :=
  (allVecs pts.length ks).countP
    (fun v => decide (lexLt (measureK ks (withKs pts v)) (measureK ks pts)))


/-- Sum of `g j` over `j < n` (the per-cluster accumulation of the
source's `sums` array). -/
def sumOver : ℕ → (ℕ → ℚ) → ℚ
  | 0, _ => 0
  | n + 1, g => sumOver n g + g n


/-- Invariant of the Lloyd states reached after at least one pass:
`ks` centroids labelled by position, every point assigned below `ks`,
and the centroids are the update of the points by some previous list. -/
def PassInv (ks : ℕ) (pts : List Pt) (cents : List Cent) : Prop :=
  cents.length = ks ∧ 1 ≤ ks ∧ centsIdx cents ∧
  (∀ p ∈ pts, ∃ j, p.k = some j ∧ j < ks) ∧
  ∃ c0 : List Cent, c0.length = ks ∧ cents = updateCents pts 0 c0


/-- The first element (in original order) among those attaining the
minimal distance to `p`; the recursion mirrors folding the stable sort's
head from the right. -/
def bestCent (p : Pt) : List Cent → Option Cent
  | [] => none
  | c :: cs =>
    match bestCent p cs with
    | none => some c
    | some b => if dist2 p.x p.y c.x c.y ≤ dist2 p.x p.y b.x b.y then some c else some b


/-! ### Lloyd-pass fixpoint behaviour: claim C5 -/

/-- The property asserted by claim C5: whenever a full Lloyd pass has
just changed no point's cluster assignment, one further pass leaves
every point's assignment and every centroid identical. -/
def LloydFixpointClaim : Prop :=
  ∀ (pts : List Pt) (cents : List Cent),
    (kmeansPass pts cents).2.2 = false →
    kmeansPass (kmeansPass pts cents).1 (kmeansPass pts cents).2.1 =
      ((kmeansPass pts cents).1, (kmeansPass pts cents).2.1, false)


/-- Centroids agreeing in coordinates and cluster id. -/
def CoordKEq (a b : Cent) : Prop := a.x = b.x ∧ a.y = b.y ∧ a.k = b.k


/-! ### The lexicographic measure decreases at every changing pass -/

/-- Distance of a point to the centroid stored at its assigned index. -/
def distToAssigned (cents : List Cent) (p : Pt) : ℚ :=
  dist2 p.x p.y (cents.getD (p.k.getD 0) default).x (cents.getD (p.k.getD 0) default).y


/-- Distance of a point to its closest centroid. -/
def distToClosest (cents : List Cent) (p : Pt) : ℚ :=
  dist2 p.x p.y (closest p cents).x (closest p cents).y


/-! ### A concrete run of `dairy.group.get` refuting the best-run claim

Six collinear data points, `k = 3`, `runs = 2`.  The first run's seeding
draws `points[0]` twice (`floor(random() * Dsum) = 0` makes the scan stop
at index 0, whose remaining distance is 0), so one cluster starts empty
and the first run escapes its seed partition (distortion 8/3).  The
second run happens to converge exactly onto the first run's *seed*
partition with a worse distortion (68).  The final re-run starts from the
first run's seeds, the leftover assignments of the second run already
match, the very first pass reports convergence, and `get` returns 68 —
larger than the distortion 8/3 recorded for the first run. -/
def cexData : List Pt :=
  [⟨9, 0, none⟩, ⟨18, 0, none⟩, ⟨9, 0, none⟩, ⟨8, 0, none⟩, ⟨0, 0, none⟩, ⟨-2, 0, none⟩]


/-- The random draws of the refuting run (all tries of one pick draw the
same value, so the try loop keeps that pick): run 0 starts at index 0 and
scans to indices 0 and 4; run 1 starts at index 1 and scans to indices 4
and 5. -/
def cexOracle : ℕ → KppOracle := fun run =>
  if run = 0 then ⟨0, fun k _ => if k = 1 then 0 else 83 / 284, 3⟩
  else ⟨1, fun k _ => if k = 1 then 263 / 986 else 227 / 230, 3⟩


/-- The points after run 0 of the refuting run (assignments mutated in
place). -/
def ptsRun0 : List Pt :=
  [⟨9, 0, some 1⟩, ⟨18, 0, some 0⟩, ⟨9, 0, some 1⟩, ⟨8, 0, some 1⟩,
   ⟨0, 0, some 2⟩, ⟨-2, 0, some 2⟩]


/-- The points after run 1 (and after the final re-run, which changes
nothing) of the refuting run. -/
def ptsRun1 : List Pt :=
  [⟨9, 0, some 0⟩, ⟨18, 0, some 0⟩, ⟨9, 0, some 0⟩, ⟨8, 0, some 0⟩,
   ⟨0, 0, some 2⟩, ⟨-2, 0, some 2⟩]


/-- The claim that the distortion returned by `dairy.group.get` is at
most every individual restart's recorded distortion, for every data set,
every `k ≥ 1`, every `runs ≥ 1` and every outcome of the random draws. -/
def GroupBestClaim : Prop :=
  ∀ (data : List Pt) (ks runs fuel : ℕ) (o : ℕ → KppOracle)
    (pts1 pts2 : List Pt) (results : List (ℚ × List (ℚ × ℚ))) (final : ℚ),
    1 ≤ ks → 1 ≤ runs →
    runsLoop ks o fuel runs 0 data [] = some (pts1, results) →
    groupGet data ks runs false o fuel = some (final, pts2) →
    ∀ r ∈ results, final ≤ r.1


/-! ## Theorems -/

/-! ### Theorems about the herd simulator -/

/-- C1.  For every integer herd size `H` and every lactation-count list,
the three parity buckets computed by the snapshot sampler (bucket 1 and
bucket 2 rounded, bucket 3 defined as the remainder) sum to exactly `H`
— never `H + 1` or `H - 1`. -/
theorem cowsPerLac_sum_eq (H : ℤ) (lac : List ℚ) :
    (cowsPerLac (H : ℚ) lac).sum = (H : ℚ) := by
  simp [cowsPerLac]
  ring


/-- C3, counterexample.  With herd size 10, cow count 8 (shortfall 2) and
1 available heifer, the source moves 2 heifers (not `min 2 1 = 1`) and
records 4 heifers bought (not `max 0 (2 - 1) = 1`), because after
`noHeifersToHerd` is reset to the full shortfall the bought count is
computed as `hs - noCows + noHeifersToHerd = 2 + 2`. -/
theorem heiferStep_claim_false : ¬ HeiferClaim := by
  intro h
  have h1 := h 10 8 1
  norm_num [heiferStep] at h1


/-- C3, amended.  What part_004 lines 218-228 actually compute, with
`S = herdSize - currentCowCount` and `A` the available heifers: when
`S > 0`, exactly `S` heifers are moved into the herd (any deficit beyond
`A` being covered by purchases); the sold count is `A - min S A`
(the surplus over the pre-top-up transfer); the bought count is `2 * S`
when `A < S` (the source formula `hs - noCows + noHeifersToHerd`
evaluated after `noHeifersToHerd := hs - noCows`) and `0` otherwise.
When `S ≤ 0`, nothing is moved, all of `A` is sold, nothing is bought. -/
theorem heiferStep_eq (hs noCows A : ℚ) :
    heiferStep hs noCows A =
      (if 0 < hs - noCows then hs - noCows else 0,
       A - (if 0 < hs - noCows then min (hs - noCows) A else 0),
       if 0 < hs - noCows ∧ A < hs - noCows then 2 * (hs - noCows) else 0) := by
  unfold heiferStep
  rcases le_or_lt (hs - noCows) 0 with hS | hS
  · have h1 : ¬ noCows < hs := by intro h; linarith
    have h2 : ¬ (0:ℚ) < hs - noCows := not_lt.mpr hS
    have h3 : ¬ (0 < hs - noCows ∧ A < hs - noCows) := fun h => h2 h.1
    simp only [if_neg h1, if_neg h2, if_neg h3, sub_zero]
  · have h1 : noCows < hs := by linarith
    rcases lt_or_le A (hs - noCows) with hA | hA
    · have h2 : ¬ hs - noCows < A := by linarith
      have h3 : 0 < hs - noCows ∧ A < hs - noCows := ⟨hS, hA⟩
      have hmin : min (hs - noCows) A = A := min_eq_right (le_of_lt hA)
      simp only [if_pos h1, if_neg h2, if_pos hA, if_pos hS, if_pos h3, hmin,
        Prod.mk.injEq]
      exact ⟨trivial, trivial, by ring⟩
    · have htoHerd : (if hs - noCows < A then hs - noCows else A) = hs - noCows := by
        split_ifs with h
        · rfl
        · linarith
      have h2 : ¬ hs - noCows < hs - noCows := lt_irrefl _
      have h3 : ¬ (0 < hs - noCows ∧ A < hs - noCows) := by
        rintro ⟨-, hc⟩; linarith
      have hmin : min (hs - noCows) A = hs - noCows := min_eq_left hA
      simp only [if_pos h1, htoHerd, if_neg h2, if_pos hS, if_neg h3, hmin]


/-- C8, counterexample.  `Infinity` is not a finite number, yet it passes
the guard `typeof v === 'number' && !isNaN(v)` and overwrites the
configured default (here 100, the default herd size): the merge does not
retain the default, contradicting the claim that every non-finite value
is ignored. -/
theorem mergeParam_claim_false : ¬ FiniteMergeClaim := by
  intro h
  have h1 := (h (.fin 100) (.number .posInf)).1 (by intro q hq; cases hq)
  simp [mergeParam] at h1


/-- C8, amended.  The merging loop of `dairy.herd.get` keeps the default
exactly when the supplied value is absent, not a number, or `NaN`; every
other numeric value — finite or infinite — overwrites the parameter, and
no value is ever rejected with an error (the merge is total). -/
theorem mergeParam_eq (cur : JsNum) :
    (∀ q : ℚ, mergeParam cur (some (.number (.fin q))) = .fin q) ∧
    mergeParam cur (some (.number .posInf)) = .posInf ∧
    mergeParam cur (some (.number .negInf)) = .negInf ∧
    mergeParam cur (some (.number .nan)) = cur ∧
    mergeParam cur (some .nonNumber) = cur ∧
    mergeParam cur none = cur := by
  refine ⟨fun q => ?_, ?_, ?_, ?_, ?_, ?_⟩ <;> simp [mergeParam]


/-- C4.  The simulator's exit test agrees exactly with the claimed
convergence condition (first conjunct), and whenever an exit case holds
at the end of a step the loop returns the current distribution rather
than raising an error (second conjunct: the fuel-indexed loop yields
`some` of the stepped state). -/
theorem herdExit_spec :
    (∀ (its : ℕ) (noCows lacSum : ℚ) (avgPrev : Option ℚ) (hs : ℚ) (noCowsNaN : Bool),
      herdExit its noCows lacSum avgPrev hs noCowsNaN = true ↔
        HerdExitSpec its noCows lacSum avgPrev hs noCowsNaN) ∧
    (∀ (P : HerdParams) (fuel : ℕ) (s : HerdState),
      (herdStep P s).2 = true → simLoop P (fuel + 1) s = some (herdStep P s).1) := by
  constructor
  · intro its noCows lacSum avgPrev hs noCowsNaN
    unfold herdExit HerdExitSpec
    cases avgPrev with
    | none =>
      simp only [Bool.and_false, Bool.or_eq_true, decide_eq_true_eq, Bool.false_or,
        or_assoc]
      constructor
      · rintro (h | h | h)
        · exact Or.inr (Or.inl h)
        · exact Or.inr (Or.inr (Or.inl h))
        · exact Or.inr (Or.inr (Or.inr h))
      · rintro (⟨-, -, a, ha, -⟩ | h | h | h)
        · cases ha
        · exact Or.inl h
        · exact Or.inr (Or.inl h)
        · exact Or.inr (Or.inr h)
    | some a =>
      simp only [Bool.or_eq_true, Bool.and_eq_true, decide_eq_true_eq, or_assoc,
        and_assoc]
      constructor
      · rintro (⟨h1, h2, h3⟩ | h | h | h)
        · exact Or.inl ⟨h1, h2, a, rfl, h3⟩
        · exact Or.inr (Or.inl h)
        · exact Or.inr (Or.inr (Or.inl h))
        · exact Or.inr (Or.inr (Or.inr h))
      · rintro (⟨h1, h2, b, hb, h3⟩ | h | h | h)
        · cases hb; exact Or.inl ⟨h1, h2, h3⟩
        · exact Or.inr (Or.inl h)
        · exact Or.inr (Or.inr (Or.inl h))
        · exact Or.inr (Or.inr (Or.inr h))
  · intro P fuel s h
    simp [simLoop, h]


/-- C4, witness: the exit-test equivalence instantiated at a state past
the iteration ceiling, and the loop returning that state's step. -/
theorem herdExit_spec_witness :
    (herdStep (herdDefaults 1) ⟨[], [], [], [], [], 0, none, IT_MAX + 1⟩).2 = true ∧
    simLoop (herdDefaults 1) 3 ⟨[], [], [], [], [], 0, none, IT_MAX + 1⟩ =
      some (herdStep (herdDefaults 1) ⟨[], [], [], [], [], 0, none, IT_MAX + 1⟩).1 := by
  have hexit : (herdStep (herdDefaults 1) ⟨[], [], [], [], [], 0, none, IT_MAX + 1⟩).2 = true := by
    norm_num [herdStep, herdExit, herdDefaults, heiferStep, cowsUpdate, lacCounts,
      weightedLacSum, IT_MAX, IT_MIN]
  exact ⟨hexit, herdExit_spec.2 (herdDefaults 1) 2 _ hexit⟩


/-- Termination of the herd simulation loop: once the iteration counter
passes `IT_MAX` the exit test fires unconditionally, so from any state
the loop returns within `IT_MAX + 2 - its` steps. -/
theorem simLoop_terminates (P : HerdParams) :
    ∀ (fuel : ℕ) (s : HerdState), 1 ≤ fuel → IT_MAX + 2 ≤ fuel + s.its →
      (simLoop P fuel s).isSome := by
  intro fuel
  induction fuel with
  | zero => intro s h1 _; cases h1
  | succ n ih =>
    intro s _ h2
    by_cases hex : (herdStep P s).2 = true
    · simp [simLoop, hex]
    · have hits : s.its ≤ IT_MAX := by
        by_contra hgt
        push_neg at hgt
        apply hex
        unfold herdStep
        simp only [herdExit, Bool.or_eq_true, decide_eq_true_eq, or_assoc]
        exact Or.inr (Or.inl hgt)
      have hstep_its : (herdStep P s).1.its = s.its + 1 := by
        unfold herdStep
        rfl
      have hn : 1 ≤ n := by omega
      have := ih (herdStep P s).1 hn (by omega)
      simp only [simLoop, Bool.not_eq_true] at *
      rw [hex]
      simpa using this


/-! ### Characterizing the stable sorts -/

/-- Head of an ordered insertion into a nonempty list. -/
theorem headI_orderedInsert (r : Cent → Cent → Prop) [DecidableRel r] (a : Cent)
    (s : List Cent) (hs : s ≠ []) :
    (List.orderedInsert r a s).headI = if r a s.headI then a else s.headI := by
  cases s with
  | nil => exact absurd rfl hs
  | cons b t =>
    by_cases h : r a b <;> simp [List.orderedInsert, h]


theorem bestCent_isSome (p : Pt) (l : List Cent) (hl : l ≠ []) :
    ∃ b, bestCent p l = some b := by
  cases l with
  | nil => exact absurd rfl hl
  | cons c cs =>
    unfold bestCent
    cases h : bestCent p cs with
    | none => exact ⟨c, rfl⟩
    | some b =>
      by_cases hle : dist2 p.x p.y c.x c.y ≤ dist2 p.x p.y b.x b.y <;>
        simp [hle]


/-- The head of the stable distance sort is the first minimal-distance
centroid. -/
theorem closest_eq_bestCent (p : Pt) (cents : List Cent) :
    closest p cents = (bestCent p cents).getD default := by
  induction cents with
  | nil => rfl
  | cons c cs ih =>
    have hstep : List.insertionSort (distLe p) (c :: cs) =
        List.orderedInsert (distLe p) c (List.insertionSort (distLe p) cs) := rfl
    unfold closest at ih ⊢
    rw [hstep]
    cases cs with
    | nil => rfl
    | cons c1 cs1 =>
      have hne : List.insertionSort (distLe p) (c1 :: cs1) ≠ [] := by
        intro h
        have h2 := congrArg List.length h
        rw [List.length_insertionSort] at h2
        cases h2
      rw [headI_orderedInsert (distLe p) c _ hne]
      obtain ⟨b, hb⟩ := bestCent_isSome p (c1 :: cs1) (by intro h; cases h)
      rw [ih, hb]
      simp only [Option.getD_some]
      show _ = (bestCent p (c :: c1 :: cs1)).getD default
      unfold bestCent
      rw [hb]
      by_cases hle : dist2 p.x p.y c.x c.y ≤ dist2 p.x p.y b.x b.y
      · simp [distLe, hle]
      · simp [distLe, hle]


theorem bestCent_mem (p : Pt) : ∀ (l : List Cent) (b : Cent), bestCent p l = some b → b ∈ l := by
  intro l
  induction l with
  | nil => intro b h; cases h
  | cons c cs ih =>
    intro b h
    unfold bestCent at h
    cases hcs : bestCent p cs with
    | none =>
      rw [hcs] at h
      simp at h
      simp [h]
    | some b1 =>
      rw [hcs] at h
      by_cases hle : dist2 p.x p.y c.x c.y ≤ dist2 p.x p.y b1.x b1.y
      · simp [hle] at h
        simp [h]
      · simp [hle] at h
        exact List.mem_cons_of_mem c (ih b (h ▸ hcs))


theorem bestCent_min (p : Pt) : ∀ (l : List Cent) (b : Cent), bestCent p l = some b →
    ∀ c ∈ l, dist2 p.x p.y b.x b.y ≤ dist2 p.x p.y c.x c.y := by
  intro l
  induction l with
  | nil => intro b h; cases h
  | cons a l ih =>
    intro b hb d hd
    unfold bestCent at hb
    cases hl : bestCent p l with
    | none =>
      rw [hl] at hb
      have hlnil : l = [] := by
        cases l with
        | nil => rfl
        | cons x xs =>
          obtain ⟨y, hy⟩ := bestCent_isSome p (x :: xs) (by intro h; cases h)
          rw [hy] at hl
          cases hl
      subst hlnil
      simp only [Option.some.injEq] at hb
      subst hb
      simp only [List.mem_singleton] at hd
      subst hd
      exact le_refl _
    | some b1 =>
      rw [hl] at hb
      have hb2 : (if dist2 p.x p.y a.x a.y ≤ dist2 p.x p.y b1.x b1.y then some a
          else some b1) = some b := hb
      by_cases hle : dist2 p.x p.y a.x a.y ≤ dist2 p.x p.y b1.x b1.y
      · rw [if_pos hle] at hb2
        simp only [Option.some.injEq] at hb2
        subst hb2
        rcases List.mem_cons.mp hd with h | h
        · subst h
          exact le_refl _
        · exact le_trans hle (ih b1 hl d h)
      · rw [if_neg hle] at hb2
        simp only [Option.some.injEq] at hb2
        subst hb2
        rcases List.mem_cons.mp hd with h | h
        · subst h
          exact le_of_not_le hle
        · exact ih b1 hl d h


/-! ### Relabeling lemmas and claim C6 -/

theorem relabelCents_length : ∀ (l : List Cent) (i : ℕ), (relabelCents i l).length = l.length := by
  intro l
  induction l with
  | nil => intro i; rfl
  | cons c cs ih => intro i; simp [relabelCents, ih]


theorem relabelCents_x : ∀ (l : List Cent) (i : ℕ),
    (relabelCents i l).map Cent.x = l.map Cent.x := by
  intro l
  induction l with
  | nil => intro i; rfl
  | cons c cs ih => intro i; simp [relabelCents, ih]


theorem relabelCents_pairwise {l : List Cent} (h : List.Pairwise xDesc l) :
    ∀ i, List.Pairwise xDesc (relabelCents i l) := by
  induction l with
  | nil => intro i; exact List.Pairwise.nil
  | cons c cs ih =>
    intro i
    rcases List.pairwise_cons.mp h with ⟨hc, hcs⟩
    refine List.pairwise_cons.mpr ⟨?_, ih hcs (i + 1)⟩
    intro b hb
    have hbx : b.x ∈ (relabelCents (i + 1) cs).map Cent.x := List.mem_map_of_mem Cent.x hb
    rw [relabelCents_x] at hbx
    obtain ⟨c1, hc1, hxeq⟩ := List.mem_map.mp hbx
    show b.x ≤ c.x
    rw [← hxeq]
    exact hc c1 hc1


theorem relabelCents_k : ∀ (l : List Cent) (i j : ℕ), j < l.length →
    ((relabelCents i l).getD j default).k = i + j := by
  intro l
  induction l with
  | nil => intro i j hj; cases hj
  | cons c cs ih =>
    intro i j hj
    cases j with
    | zero => rfl
    | succ m =>
      have := ih (i + 1) m (Nat.lt_of_succ_lt_succ hj)
      simp only [relabelCents, List.getD_cons_succ]
      rw [this]
      omega


theorem pairwise_xDesc_headI {cs : List Cent} (h : List.Pairwise xDesc cs) :
    ∀ c ∈ cs, c.x ≤ cs.headI.x := by
  cases cs with
  | nil => intro c hc; cases hc
  | cons a l =>
    intro c hc
    rcases List.mem_cons.mp hc with rfl | hcm
    · exact le_refl _
    · exact (List.pairwise_cons.mp h).1 c hcm


/-- C6.  For every point list, cluster count, and outcome of the random
draws, the centroid list returned by `kmeansplusplus` is ordered by
descending `x` coordinate, carries cluster ids `0..k-1` in that order,
and its first centroid has the maximal `x` value among all returned
centroids. -/
theorem kmeansplusplus_ordered (pts : List Pt) (ks : ℕ) (o : KppOracle) :
    List.Pairwise xDesc (kmeansplusplus pts ks o) ∧
    (∀ j, j < (kmeansplusplus pts ks o).length →
      ((kmeansplusplus pts ks o).getD j default).k = j) ∧
    (∀ c ∈ kmeansplusplus pts ks o, c.x ≤ (kmeansplusplus pts ks o).headI.x) := by
  unfold kmeansplusplus
  set grown := kppGrow pts o (ks - 1) 1
    [⟨(pts.getD o.first default).x, (pts.getD o.first default).y, 0, 0⟩]
    (pts.map (fun p => dist2 (pts.getD o.first default).x (pts.getD o.first default).y p.x p.y))
    (pts.map (fun p => dist2 (pts.getD o.first default).x (pts.getD o.first default).y p.x p.y)).sum
    with hgrown
  have hsorted : List.Pairwise xDesc (List.insertionSort xDesc grown) :=
    List.sorted_insertionSort xDesc grown
  have hpw := relabelCents_pairwise hsorted 0
  refine ⟨hpw, ?_, pairwise_xDesc_headI hpw⟩
  intro j hj
  rw [relabelCents_length] at hj
  rw [relabelCents_k _ 0 j hj]
  omega


/-- C6, witness: a one-point, one-cluster call (any oracle). -/
theorem kmeansplusplus_ordered_witness :
    ((kmeansplusplus [⟨1, 2, none⟩] 1 ⟨0, fun _ _ => 0, 3⟩).getD 0 default).k = 0 ∧
    ∀ c ∈ kmeansplusplus [⟨1, 2, none⟩] 1 ⟨0, fun _ _ => 0, 3⟩,
      c.x ≤ (kmeansplusplus [⟨1, 2, none⟩] 1 ⟨0, fun _ _ => 0, 3⟩).headI.x := by
  refine ⟨(kmeansplusplus_ordered [⟨1, 2, none⟩] 1 ⟨0, fun _ _ => 0, 3⟩).2.1 0 ?_,
    (kmeansplusplus_ordered [⟨1, 2, none⟩] 1 ⟨0, fun _ _ => 0, 3⟩).2.2⟩
  show 0 < (kmeansplusplus [⟨1, 2, none⟩] 1 ⟨0, fun _ _ => 0, 3⟩).length
  norm_num [kmeansplusplus, kppGrow, relabelCents, List.insertionSort, List.orderedInsert]


/-! ### The empty-cluster guard: claim C7 -/

theorem updateCents_length (pts : List Pt) :
    ∀ (cents : List Cent) (j : ℕ), (updateCents pts j cents).length = cents.length := by
  intro cents
  induction cents with
  | nil => intro j; rfl
  | cons c cs ih => intro j; simp [updateCents, ih]


theorem updateCents_getD (pts : List Pt) :
    ∀ (cents : List Cent) (j0 i : ℕ), i < cents.length →
    (updateCents pts j0 cents).getD i default =
      (if 0 < (members pts (j0 + i)).length then
        (⟨((members pts (j0 + i)).map Pt.x).sum / (members pts (j0 + i)).length,
          ((members pts (j0 + i)).map Pt.y).sum / (members pts (j0 + i)).length,
          (cents.getD i default).k, (members pts (j0 + i)).length⟩ : Cent)
       else
        ⟨(cents.getD i default).x, (cents.getD i default).y,
         (cents.getD i default).k, (members pts (j0 + i)).length⟩) := by
  intro cents
  induction cents with
  | nil => intro j0 i hi; cases hi
  | cons c cs ih =>
    intro j0 i hi
    cases i with
    | zero =>
      simp only [Nat.add_zero, updateCents, List.getD_cons_zero]
    | succ m =>
      have him : m < cs.length := Nat.lt_of_succ_lt_succ hi
      have h1 := ih (j0 + 1) m him
      have h2 : j0 + 1 + m = j0 + (m + 1) := by omega
      rw [h2] at h1
      simpa only [updateCents, List.getD_cons_succ] using h1


/-- C7.  In every Lloyd pass, a centroid whose cluster receives no
points keeps its previous coordinates (the mean recomputation and its
division by the member count are guarded by `sums[k].items > 0`), its
recorded member count is zero, and the pass preserves the number of
centroids — so a call with more clusters than distinct points merely
produces empty clusters, never an error. -/
theorem kmeansPass_empty_keeps (pts : List Pt) (cents : List Cent) (j : ℕ)
    (hj : j < cents.length)
    (hempty : members (kmeansPass pts cents).1 j = []) :
    ((kmeansPass pts cents).2.1.getD j default).x = (cents.getD j default).x ∧
    ((kmeansPass pts cents).2.1.getD j default).y = (cents.getD j default).y ∧
    ((kmeansPass pts cents).2.1.getD j default).items = 0 ∧
    (kmeansPass pts cents).2.1.length = cents.length := by
  have h1 : (kmeansPass pts cents).2.1 = updateCents (kmeansPass pts cents).1 0 cents := rfl
  rw [h1, updateCents_getD _ cents 0 j hj]
  rw [Nat.zero_add, hempty]
  simp only [List.length_nil, lt_irrefl, if_false]
  exact ⟨trivial, trivial, trivial, updateCents_length _ cents 0⟩


/-- C7, witness: two centroids, one point; cluster 1 stays empty and its
centroid coordinates survive the pass. -/
theorem kmeansPass_empty_keeps_witness :
    ((kmeansPass [⟨0, 0, none⟩] [⟨0, 0, 0, 0⟩, ⟨5, 0, 1, 0⟩]).2.1.getD 1 default).x =
      (([⟨0, 0, 0, 0⟩, ⟨5, 0, 1, 0⟩] : List Cent).getD 1 default).x ∧
    (1 : ℕ) < ([⟨0, 0, 0, 0⟩, ⟨5, 0, 1, 0⟩] : List Cent).length ∧
    members (kmeansPass [⟨0, 0, none⟩] [⟨0, 0, 0, 0⟩, ⟨5, 0, 1, 0⟩]).1 1 = [] := by
  have hj : (1 : ℕ) < ([⟨0, 0, 0, 0⟩, ⟨5, 0, 1, 0⟩] : List Cent).length := by norm_num
  have hemp : members (kmeansPass [⟨0, 0, none⟩] [⟨0, 0, 0, 0⟩, ⟨5, 0, 1, 0⟩]).1 1 = [] := by
    norm_num [kmeansPass, passAssign, closest, members, List.insertionSort,
      List.orderedInsert, distLe, dist2, List.filter]
  exact ⟨(kmeansPass_empty_keeps _ _ 1 hj hemp).1, hj, hemp⟩


/-! ### Normalization: claim C10 -/

theorem getLastD_mem : ∀ (s : List Pt) (d : Pt), s ≠ [] → s.getLastD d ∈ s := by
  intro s
  induction s with
  | nil => intro d h; exact absurd rfl h
  | cons b t ih =>
    intro d _
    rw [List.getLastD_cons]
    cases ht : t with
    | nil => simp [List.getLastD]
    | cons c t1 =>
      subst ht
      exact List.mem_cons_of_mem b (ih b (by intro h2; cases h2))


theorem pairwise_ptLeY_headI {s : List Pt} (h : List.Pairwise ptLeY s) :
    ∀ a ∈ s, s.headI.y ≤ a.y := by
  cases s with
  | nil => intro a ha; cases ha
  | cons b t =>
    intro a ha
    rcases List.mem_cons.mp ha with rfl | hm
    · exact le_refl _
    · exact (List.pairwise_cons.mp h).1 a hm


theorem pairwise_ptLeX_headI {s : List Pt} (h : List.Pairwise ptLeX s) :
    ∀ a ∈ s, s.headI.x ≤ a.x := by
  cases s with
  | nil => intro a ha; cases ha
  | cons b t =>
    intro a ha
    rcases List.mem_cons.mp ha with rfl | hm
    · exact le_refl _
    · exact (List.pairwise_cons.mp h).1 a hm


theorem pairwise_ptLeY_getLastD {s : List Pt} (h : List.Pairwise ptLeY s) :
    ∀ a ∈ s, a.y ≤ (s.getLastD default).y := by
  induction s with
  | nil => intro a ha; cases ha
  | cons b t ih =>
    intro a ha
    rw [List.getLastD_cons]
    rcases List.pairwise_cons.mp h with ⟨hb, ht⟩
    cases htn : t with
    | nil =>
      subst htn
      simp only [List.mem_singleton] at ha
      subst ha
      simp [List.getLastD]
    | cons c t1 =>
      subst htn
      have heq : (c :: t1).getLastD b = (c :: t1).getLastD default := by
        rw [List.getLastD_cons, List.getLastD_cons]
      rw [heq]
      rcases List.mem_cons.mp ha with rfl | hm
      · exact hb _ (getLastD_mem (c :: t1) default (by intro h2; cases h2))
      · exact ih ht a hm


theorem pairwise_ptLeX_getLastD {s : List Pt} (h : List.Pairwise ptLeX s) :
    ∀ a ∈ s, a.x ≤ (s.getLastD default).x := by
  induction s with
  | nil => intro a ha; cases ha
  | cons b t ih =>
    intro a ha
    rw [List.getLastD_cons]
    rcases List.pairwise_cons.mp h with ⟨hb, ht⟩
    cases htn : t with
    | nil =>
      subst htn
      simp only [List.mem_singleton] at ha
      subst ha
      simp [List.getLastD]
    | cons c t1 =>
      subst htn
      have heq : (c :: t1).getLastD b = (c :: t1).getLastD default := by
        rw [List.getLastD_cons, List.getLastD_cons]
      rw [heq]
      rcases List.mem_cons.mp ha with rfl | hm
      · exact hb _ (getLastD_mem (c :: t1) default (by intro h2; cases h2))
      · exact ih ht a hm


/-- C5, counterexample.  Points `(0,0), (5,0), (6,0)` pre-assigned to
clusters `0, 0, 1` and centroids at `(2,0)` and `(8,0)`: the pass
changes no assignment (the middle point ties at distance 9 to both
centroids and the stable sort keeps centroid 0 first), but it moves the
centroids to the cluster means `(5/2,0)` and `(6,0)`, after which a
further pass reassigns the middle point to cluster 1 — the assignments
are not identical. -/
theorem lloyd_fixpoint_claim_false : ¬ LloydFixpointClaim := by
  intro h
  have hflag : (kmeansPass [⟨0, 0, some 0⟩, ⟨5, 0, some 0⟩, ⟨6, 0, some 1⟩]
      [⟨2, 0, 0, 0⟩, ⟨8, 0, 1, 0⟩]).2.2 = false := by
    norm_num [kmeansPass, passAssign, closest, List.insertionSort, List.orderedInsert,
      distLe, dist2]
  have h1 := h _ _ hflag
  have h2 : (kmeansPass
      (kmeansPass [⟨0, 0, some 0⟩, ⟨5, 0, some 0⟩, ⟨6, 0, some 1⟩]
        [⟨2, 0, 0, 0⟩, ⟨8, 0, 1, 0⟩]).1
      (kmeansPass [⟨0, 0, some 0⟩, ⟨5, 0, some 0⟩, ⟨6, 0, some 1⟩]
        [⟨2, 0, 0, 0⟩, ⟨8, 0, 1, 0⟩]).2.1).2.2 = true := by
    norm_num [kmeansPass, passAssign, closest, List.insertionSort, List.orderedInsert,
      distLe, dist2, updateCents, members, List.filter]
  rw [h1] at h2
  cases h2


/-- A pass that changes no assignment writes back every point's existing
cluster id, so the point list is unchanged. -/
theorem passAssign_false_eq (cents : List Cent) :
    ∀ pts : List Pt, (passAssign cents pts).2 = false → (passAssign cents pts).1 = pts := by
  intro pts
  induction pts with
  | nil => intro _; rfl
  | cons p ps ih =>
    intro hflag
    have hflag2 : (!decide (p.k = some (closest p cents).k) || (passAssign cents ps).2) =
        false := hflag
    simp only [Bool.or_eq_false_iff, Bool.not_eq_false', decide_eq_true_eq] at hflag2
    show (⟨p.x, p.y, some (closest p cents).k⟩ : Pt) :: (passAssign cents ps).1 = p :: ps
    rw [ih hflag2.2, ← hflag2.1]


/-- The k fields of the centroid array are untouched by the update
phase. -/
theorem updateCents_k (pts : List Pt) :
    ∀ (cents : List Cent) (j : ℕ),
    List.Forall₂ (fun a b : Cent => a.k = b.k) cents (updateCents pts j cents) := by
  intro cents
  induction cents with
  | nil => intro j; exact List.Forall₂.nil
  | cons c cs ih =>
    intro j
    refine List.Forall₂.cons ?_ (ih (j + 1))
    by_cases hn : 0 < (members pts j).length <;> simp [updateCents, hn]


/-- Updating twice from the same assignment gives the same centroids:
nonempty clusters get the same means again, empty clusters keep the
coordinates the first update already kept. -/
theorem updateCents_idem (pts : List Pt) :
    ∀ (cents : List Cent) (j : ℕ),
    updateCents pts j (updateCents pts j cents) = updateCents pts j cents := by
  intro cents
  induction cents with
  | nil => intro j; rfl
  | cons c cs ih =>
    intro j
    show updateCents pts j (_ :: updateCents pts (j + 1) cs) = _
    unfold updateCents
    rw [ih (j + 1)]
    by_cases hn : 0 < (members pts j).length <;> simp [hn]


theorem bestCent_congr (p : Pt) : ∀ {l1 l2 : List Cent}, List.Forall₂ CoordKEq l1 l2 →
    (bestCent p l1 = none ∧ bestCent p l2 = none) ∨
    (∃ b1 b2, bestCent p l1 = some b1 ∧ bestCent p l2 = some b2 ∧ CoordKEq b1 b2) := by
  intro l1 l2 h
  induction h with
  | nil => exact Or.inl ⟨rfl, rfl⟩
  | cons hab htail ih =>
    rename_i a b t1 t2
    right
    rcases ih with ⟨h1, h2⟩ | ⟨b1, b2, h1, h2, hb⟩
    · exact ⟨_, _, by unfold bestCent; rw [h1], by unfold bestCent; rw [h2], hab⟩
    · have hcond : (dist2 p.x p.y a.x a.y ≤ dist2 p.x p.y b1.x b1.y) ↔
          (dist2 p.x p.y b.x b.y ≤ dist2 p.x p.y b2.x b2.y) := by
        rw [hab.1, hab.2.1, hb.1, hb.2.1]
      by_cases hle : dist2 p.x p.y a.x a.y ≤ dist2 p.x p.y b1.x b1.y
      · refine ⟨a, b, ?_, ?_, hab⟩
        · unfold bestCent
          rw [h1]
          show (if dist2 p.x p.y a.x a.y ≤ dist2 p.x p.y b1.x b1.y then some a
            else some b1) = some a
          rw [if_pos hle]
        · unfold bestCent
          rw [h2]
          show (if dist2 p.x p.y b.x b.y ≤ dist2 p.x p.y b2.x b2.y then some b
            else some b2) = some b
          rw [if_pos (hcond.mp hle)]
      · refine ⟨b1, b2, ?_, ?_, hb⟩
        · unfold bestCent
          rw [h1]
          show (if dist2 p.x p.y a.x a.y ≤ dist2 p.x p.y b1.x b1.y then some a
            else some b1) = some b1
          rw [if_neg hle]
        · unfold bestCent
          rw [h2]
          show (if dist2 p.x p.y b.x b.y ≤ dist2 p.x p.y b2.x b2.y then some b
            else some b2) = some b2
          rw [if_neg (fun hc => hle (hcond.mpr hc))]


/-- Assignment only reads centroid coordinates and cluster ids, so two
coordinate-and-id-equal centroid lists assign identically. -/
theorem passAssign_congr {l1 l2 : List Cent} (h : List.Forall₂ CoordKEq l1 l2) :
    ∀ pts : List Pt, passAssign l1 pts = passAssign l2 pts := by
  intro pts
  induction pts with
  | nil => rfl
  | cons p ps ih =>
    have hk : (closest p l1).k = (closest p l2).k := by
      rw [closest_eq_bestCent, closest_eq_bestCent]
      rcases bestCent_congr p h with ⟨h1, h2⟩ | ⟨b1, b2, h1, h2, hb⟩
      · rw [h1, h2]
      · rw [h1, h2]
        exact hb.2.2
    unfold passAssign
    rw [ih, hk]


theorem forall2_coordK {l1 l2 : List Cent}
    (hxy : List.Forall₂ (fun a b : Cent => a.x = b.x ∧ a.y = b.y) l1 l2)
    (hk : List.Forall₂ (fun a b : Cent => a.k = b.k) l1 l2) :
    List.Forall₂ CoordKEq l1 l2 := by
  induction hxy with
  | nil => exact List.Forall₂.nil
  | cons h1 h2 ih =>
    cases hk with
    | cons h3 h4 => exact List.Forall₂.cons ⟨h1.1, h1.2, h3⟩ (ih h4)


/-- C5, amended.  If a full Lloyd pass changes no point's assignment
*and also leaves every centroid's coordinates unchanged* (which the
counterexample shows is an extra condition, satisfied for instance once
two consecutive passes agree), then a further pass produces identical
assignments and identical centroids, and again reports no change. -/
theorem lloyd_fixpoint_amended (pts : List Pt) (cents : List Cent)
    (hflag : (kmeansPass pts cents).2.2 = false)
    (hcoords : List.Forall₂ (fun a b : Cent => a.x = b.x ∧ a.y = b.y) cents
      (kmeansPass pts cents).2.1) :
    kmeansPass (kmeansPass pts cents).1 (kmeansPass pts cents).2.1 =
      ((kmeansPass pts cents).1, (kmeansPass pts cents).2.1, false) := by
  have hpts : (passAssign cents pts).1 = pts := passAssign_false_eq cents pts hflag
  have hkf : List.Forall₂ (fun a b : Cent => a.k = b.k) cents (kmeansPass pts cents).2.1 := by
    show List.Forall₂ _ cents (updateCents (passAssign cents pts).1 0 cents)
    exact updateCents_k _ cents 0
  have hco : List.Forall₂ CoordKEq cents (kmeansPass pts cents).2.1 :=
    forall2_coordK hcoords hkf
  have hassign : passAssign (kmeansPass pts cents).2.1 pts = passAssign cents pts :=
    (passAssign_congr hco pts).symm
  have hc1 : (kmeansPass pts cents).2.1 = updateCents pts 0 cents := by
    show updateCents (passAssign cents pts).1 0 cents = _
    rw [hpts]
  show (let a := passAssign (kmeansPass pts cents).2.1 (kmeansPass pts cents).1
    (a.1, updateCents a.1 0 (kmeansPass pts cents).2.1, a.2)) = _
  show (let a := passAssign (kmeansPass pts cents).2.1 (passAssign cents pts).1
    (a.1, updateCents a.1 0 (kmeansPass pts cents).2.1, a.2)) = _
  rw [hpts]
  simp only [hassign]
  rw [hpts]
  have hflag2 : (passAssign cents pts).2 = false := hflag
  rw [hflag2, hc1, updateCents_idem]
  rw [show (kmeansPass pts cents).1 = (passAssign cents pts).1 from rfl, hpts]


/-- C5 amended, witness: a genuine fixpoint state — two points at their
own centroids — where a further pass changes nothing. -/
theorem lloyd_fixpoint_amended_witness :
    (kmeansPass [⟨0, 0, some 0⟩, ⟨4, 0, some 1⟩] [⟨0, 0, 0, 1⟩, ⟨4, 0, 1, 1⟩]).2.2 = false ∧
    kmeansPass
      (kmeansPass [⟨0, 0, some 0⟩, ⟨4, 0, some 1⟩] [⟨0, 0, 0, 1⟩, ⟨4, 0, 1, 1⟩]).1
      (kmeansPass [⟨0, 0, some 0⟩, ⟨4, 0, some 1⟩] [⟨0, 0, 0, 1⟩, ⟨4, 0, 1, 1⟩]).2.1 =
      ((kmeansPass [⟨0, 0, some 0⟩, ⟨4, 0, some 1⟩] [⟨0, 0, 0, 1⟩, ⟨4, 0, 1, 1⟩]).1,
       (kmeansPass [⟨0, 0, some 0⟩, ⟨4, 0, some 1⟩] [⟨0, 0, 0, 1⟩, ⟨4, 0, 1, 1⟩]).2.1,
       false) := by
  have hflag : (kmeansPass [⟨0, 0, some 0⟩, ⟨4, 0, some 1⟩]
      [⟨0, 0, 0, 1⟩, ⟨4, 0, 1, 1⟩]).2.2 = false := by
    norm_num [kmeansPass, passAssign, closest, List.insertionSort, List.orderedInsert,
      distLe, dist2]
  have hcoords : List.Forall₂ (fun a b : Cent => a.x = b.x ∧ a.y = b.y)
      [⟨0, 0, 0, 1⟩, ⟨4, 0, 1, 1⟩]
      (kmeansPass [⟨0, 0, some 0⟩, ⟨4, 0, some 1⟩] [⟨0, 0, 0, 1⟩, ⟨4, 0, 1, 1⟩]).2.1 := by
    have hc : (kmeansPass [⟨0, 0, some 0⟩, ⟨4, 0, some 1⟩]
        [⟨0, 0, 0, 1⟩, ⟨4, 0, 1, 1⟩]).2.1 = [⟨0, 0, 0, 1⟩, ⟨4, 0, 1, 1⟩] := by
      norm_num [kmeansPass, passAssign, closest, List.insertionSort, List.orderedInsert,
        distLe, dist2, updateCents, members, List.filter]
    rw [hc]
    exact List.Forall₂.cons ⟨rfl, rfl⟩ (List.Forall₂.cons ⟨rfl, rfl⟩ List.Forall₂.nil)
  exact ⟨hflag, lloyd_fixpoint_amended _ _ hflag hcoords⟩


/-! ### Sum algebra for the termination measure -/

theorem sumOver_congr {n : ℕ} {g h : ℕ → ℚ} (hgh : ∀ j, j < n → g j = h j) :
    sumOver n g = sumOver n h := by
  induction n with
  | zero => rfl
  | succ m ih =>
    unfold sumOver
    rw [ih (fun j hj => hgh j (Nat.lt_succ_of_lt hj)), hgh m (Nat.lt_succ_self m)]


theorem sumOver_zero_fun (n : ℕ) : sumOver n (fun _ => (0 : ℚ)) = 0 := by
  induction n with
  | zero => rfl
  | succ m ih => unfold sumOver; rw [ih]; ring


theorem sumOver_le {n : ℕ} {g h : ℕ → ℚ} (hgh : ∀ j, j < n → g j ≤ h j) :
    sumOver n g ≤ sumOver n h := by
  induction n with
  | zero => exact le_refl _
  | succ m ih =>
    unfold sumOver
    have h1 := ih (fun j hj => hgh j (Nat.lt_succ_of_lt hj))
    have h2 := hgh m (Nat.lt_succ_self m)
    linarith


theorem sumOver_insert {n jp : ℕ} (hjp : jp < n) (a : ℚ) (g : ℕ → ℚ) :
    sumOver n (fun j => if j = jp then a + g j else g j) = a + sumOver n g := by
  induction n with
  | zero => cases hjp
  | succ m ih =>
    unfold sumOver
    by_cases hm : jp = m
    · subst hm
      have hpre : sumOver jp (fun j => if j = jp then a + g j else g j) = sumOver jp g :=
        sumOver_congr (fun j hj => by rw [if_neg (Nat.ne_of_lt hj)])
      rw [hpre]
      show sumOver jp g + (if jp = jp then a + g jp else g jp) = a + (sumOver jp g + g jp)
      rw [if_pos rfl]
      ring
    · have hjp2 : jp < m := by omega
      rw [ih hjp2]
      show a + sumOver m g + (if m = jp then a + g m else g m) = a + (sumOver m g + g m)
      rw [if_neg (fun hc => hm hc.symm)]
      ring


/-- Shifting the center of a sum of squares: the cross term is linear in
the deviation of the sum from `n · m`. -/
theorem sum_sq_shift (xs : List ℚ) (c m : ℚ) :
    (xs.map (fun x => (x - c) ^ 2)).sum =
      (xs.map (fun x => (x - m) ^ 2)).sum + 2 * (m - c) * (xs.sum - (xs.length : ℚ) * m)
        + (xs.length : ℚ) * (m - c) ^ 2 := by
  induction xs with
  | nil => simp
  | cons x t ih =>
    simp only [List.map_cons, List.sum_cons, List.length_cons]
    rw [ih]
    push_cast
    ring


/-- The mean minimizes the sum of squared deviations. -/
theorem mean_min_sq (xs : List ℚ) (hne : xs ≠ []) (c : ℚ) :
    (xs.map (fun x => (x - xs.sum / xs.length) ^ 2)).sum ≤
      (xs.map (fun x => (x - c) ^ 2)).sum := by
  have hn : (xs.length : ℚ) ≠ 0 := by
    have : xs.length ≠ 0 := fun h => hne (List.length_eq_zero.mp h)
    exact_mod_cast this
  have hsum : xs.sum - (xs.length : ℚ) * (xs.sum / xs.length) = 0 := by
    field_simp
  rw [sum_sq_shift xs c (xs.sum / xs.length), hsum]
  have hpos : (0 : ℚ) ≤ (xs.length : ℚ) * (xs.sum / xs.length - c) ^ 2 := by positivity
  linarith


/-- The coordinate means of a nonempty cluster minimize its summed
squared distances. -/
theorem cluster_mean_min (mem : List Pt) (hne : mem ≠ []) (cx cy : ℚ) :
    (mem.map (fun p => dist2 p.x p.y ((mem.map Pt.x).sum / mem.length)
      ((mem.map Pt.y).sum / mem.length))).sum ≤
      (mem.map (fun p => dist2 p.x p.y cx cy)).sum := by
  have hxne : mem.map Pt.x ≠ [] := fun h => hne (List.map_eq_nil_iff.mp h)
  have hyne : mem.map Pt.y ≠ [] := fun h => hne (List.map_eq_nil_iff.mp h)
  have hxlen : ((mem.map Pt.x).length : ℚ) = (mem.length : ℚ) := by
    rw [List.length_map]
  have hylen : ((mem.map Pt.y).length : ℚ) = (mem.length : ℚ) := by
    rw [List.length_map]
  have hx := mean_min_sq (mem.map Pt.x) hxne cx
  have hy := mean_min_sq (mem.map Pt.y) hyne cy
  rw [List.map_map, List.map_map] at hx hy
  rw [hxlen] at hx
  rw [hylen] at hy
  unfold dist2
  rw [List.sum_map_add, List.sum_map_add]
  have hx2 : (mem.map (fun p => (p.x - (mem.map Pt.x).sum / (mem.length : ℚ)) ^ 2)).sum ≤
      (mem.map (fun p => (p.x - cx) ^ 2)).sum := hx
  have hy2 : (mem.map (fun p => (p.y - (mem.map Pt.y).sum / (mem.length : ℚ)) ^ 2)).sum ≤
      (mem.map (fun p => (p.y - cy) ^ 2)).sum := hy
  exact add_le_add hx2 hy2


/-- Pointwise bounded terms with equal sums are pointwise equal. -/
theorem map_sum_eq_pointwise {l : List Pt} {f g : Pt → ℚ}
    (hle : ∀ p ∈ l, f p ≤ g p) (hsum : (l.map f).sum = (l.map g).sum) :
    ∀ p ∈ l, f p = g p := by
  induction l with
  | nil => intro p hp; cases hp
  | cons a t ih =>
    simp only [List.map_cons, List.sum_cons] at hsum
    have hta : f a ≤ g a := hle a (List.mem_cons_self a t)
    have htle : ∀ p ∈ t, f p ≤ g p := fun p hp => hle p (List.mem_cons_of_mem a hp)
    have htsum : (t.map f).sum ≤ (t.map g).sum := List.sum_le_sum htle
    have hfa : f a = g a := by linarith
    have hts : (t.map f).sum = (t.map g).sum := by linarith
    intro p hp
    rcases List.mem_cons.mp hp with rfl | hpt
    · exact hfa
    · exact ih htle hts p hpt


/-- A strictly finer predicate selects strictly fewer list elements. -/
theorem countP_lt_countP (L : List (List ℕ)) (P Q : List ℕ → Bool)
    (hsub : ∀ v ∈ L, P v = true → Q v = true) :
    (∃ v ∈ L, Q v = true ∧ P v = false) → L.countP P < L.countP Q := by
  induction L with
  | nil => rintro ⟨v, hv, -⟩; cases hv
  | cons a t ih =>
    rintro ⟨v, hv, hQ, hP⟩
    rw [List.countP_cons, List.countP_cons]
    have hmono : t.countP P ≤ t.countP Q :=
      List.countP_mono_left (fun x hx hPx => hsub x (List.mem_cons_of_mem a hx) hPx)
    rcases List.mem_cons.mp hv with rfl | hvt
    · rw [hP, hQ]
      simp only [Bool.false_eq_true, if_false, if_true]
      omega
    · have hrec := ih (fun x hx hPx => hsub x (List.mem_cons_of_mem a hx) hPx) ⟨v, hvt, hQ, hP⟩
      have hPQ : (if P a = true then 1 else 0) ≤ (if Q a = true then 1 else 0) := by
        by_cases hPa : P a = true
        · rw [if_pos hPa, if_pos (hsub a (List.mem_cons_self a t) hPa)]
        · rw [if_neg hPa]
          omega
      omega


/-! ### Positional properties of the closest-centroid selection -/

theorem closest_mem (p : Pt) (cents : List Cent) (hne : cents ≠ []) :
    closest p cents ∈ cents := by
  obtain ⟨b, hb⟩ := bestCent_isSome p cents hne
  rw [closest_eq_bestCent, hb]
  exact bestCent_mem p cents b hb


theorem getD_mem_of_lt (cents : List Cent) (i : ℕ) (hi : i < cents.length) :
    cents.getD i default ∈ cents := by
  rw [List.getD_eq_getElem?_getD, List.getElem?_eq_getElem hi]
  exact List.getElem_mem hi


theorem closest_pos (p : Pt) (cents : List Cent) (hne : cents ≠ [])
    (hidx : centsIdx cents) :
    (closest p cents).k < cents.length ∧
    cents.getD (closest p cents).k default = closest p cents := by
  have hmem := closest_mem p cents hne
  obtain ⟨i, hi, hgi⟩ := List.mem_iff_getElem.mp hmem
  have hgd : cents.getD i default = closest p cents := by
    rw [List.getD_eq_getElem?_getD, List.getElem?_eq_getElem hi]
    exact congrArg (fun o => Option.getD o default) (congrArg some hgi)
  have hk : (closest p cents).k = i := by
    rw [← hgd]
    exact hidx i hi
  rw [hk]
  exact ⟨hi, hgd⟩


theorem closest_min (p : Pt) (cents : List Cent) (hne : cents ≠ []) :
    ∀ j, j < cents.length →
      dist2 p.x p.y (closest p cents).x (closest p cents).y ≤
        dist2 p.x p.y (cents.getD j default).x (cents.getD j default).y := by
  intro j hj
  obtain ⟨b, hb⟩ := bestCent_isSome p cents hne
  have h1 : closest p cents = b := by rw [closest_eq_bestCent, hb]; rfl
  rw [h1]
  exact bestCent_min p cents b hb _ (getD_mem_of_lt cents j hj)


/-- The chosen centroid is the *first* minimal one: every earlier
position is strictly farther. -/
theorem bestCent_first (p : Pt) : ∀ (l : List Cent) (b : Cent), bestCent p l = some b →
    ∃ i, i < l.length ∧ l.getD i default = b ∧
      ∀ m, m < i → dist2 p.x p.y b.x b.y < dist2 p.x p.y (l.getD m default).x (l.getD m default).y := by
  intro l
  induction l with
  | nil => intro b h; cases h
  | cons a t ih =>
    intro b hb
    unfold bestCent at hb
    cases hl : bestCent p t with
    | none =>
      rw [hl] at hb
      simp only [Option.some.injEq] at hb
      subst hb
      exact ⟨0, Nat.succ_pos _, rfl, fun m hm => absurd hm (Nat.not_lt_zero m)⟩
    | some b1 =>
      rw [hl] at hb
      have hb2 : (if dist2 p.x p.y a.x a.y ≤ dist2 p.x p.y b1.x b1.y then some a
          else some b1) = some b := hb
      by_cases hle : dist2 p.x p.y a.x a.y ≤ dist2 p.x p.y b1.x b1.y
      · rw [if_pos hle] at hb2
        simp only [Option.some.injEq] at hb2
        subst hb2
        exact ⟨0, Nat.succ_pos _, rfl, fun m hm => absurd hm (Nat.not_lt_zero m)⟩
      · rw [if_neg hle] at hb2
        simp only [Option.some.injEq] at hb2
        subst hb2
        obtain ⟨i, hi, hgi, hfirst⟩ := ih b1 hl
        refine ⟨i + 1, Nat.succ_lt_succ hi, hgi, ?_⟩
        intro m hm
        cases m with
        | zero => exact lt_of_not_le hle
        | succ m1 => exact hfirst m1 (Nat.lt_of_succ_lt_succ hm)


theorem closest_first (p : Pt) (cents : List Cent) (hne : cents ≠ [])
    (hidx : centsIdx cents) :
    ∀ m, m < (closest p cents).k →
      dist2 p.x p.y (closest p cents).x (closest p cents).y <
        dist2 p.x p.y (cents.getD m default).x (cents.getD m default).y := by
  obtain ⟨b, hb⟩ := bestCent_isSome p cents hne
  have h1 : closest p cents = b := by rw [closest_eq_bestCent, hb]; rfl
  obtain ⟨i, hi, hgi, hfirst⟩ := bestCent_first p cents b hb
  have hk : b.k = i := by rw [← hgi]; exact hidx i hi
  rw [h1, hk]
  exact hfirst


/-! ### The assignment phase as a map -/

theorem passAssign_map (cents : List Cent) :
    ∀ pts : List Pt,
      (passAssign cents pts).1 = pts.map (fun p => ⟨p.x, p.y, some (closest p cents).k⟩) := by
  intro pts
  induction pts with
  | nil => rfl
  | cons p ps ih =>
    show (⟨p.x, p.y, some (closest p cents).k⟩ : Pt) :: (passAssign cents ps).1 = _
    rw [ih]
    rfl


theorem passAssign_flag_true (cents : List Cent) :
    ∀ pts : List Pt, (passAssign cents pts).2 = true →
      ∃ p ∈ pts, p.k ≠ some (closest p cents).k := by
  intro pts
  induction pts with
  | nil => intro h; cases h
  | cons p ps ih =>
    intro h
    have h2 : ((!decide (p.k = some (closest p cents).k)) || (passAssign cents ps).2) =
        true := h
    rcases Bool.or_eq_true_iff.mp h2 with h3 | h3
    · refine ⟨p, List.mem_cons_self p ps, ?_⟩
      simpa using h3
    · obtain ⟨q, hq, hqk⟩ := ih h3
      exact ⟨q, List.mem_cons_of_mem p hq, hqk⟩


/-! ### The distortion split into per-cluster sums -/

theorem members_k {pts : List Pt} {j : ℕ} {q : Pt} (hq : q ∈ members pts j) :
    q.k = some j := by
  have h := (List.mem_filter.mp hq).2
  simpa using h


theorem members_cons (p : Pt) (rest : List Pt) (jp : ℕ) (hjp : p.k = some jp) (j : ℕ) :
    members (p :: rest) j =
      if j = jp then p :: members rest j else members rest j := by
  unfold members
  rw [List.filter_cons]
  by_cases hj : j = jp
  · subst hj
    rw [if_pos (by simp [hjp]), if_pos rfl]
  · rw [if_neg (by simp [hjp]; exact fun hc => hj hc.symm), if_neg hj]


theorem map_sum_split (f : Pt → ℚ) (ks : ℕ) :
    ∀ pts : List Pt, (∀ p ∈ pts, ∃ j, p.k = some j ∧ j < ks) →
    (pts.map f).sum = sumOver ks (fun j => ((members pts j).map f).sum) := by
  intro pts
  induction pts with
  | nil =>
    intro _
    have h0 : ∀ j, j < ks → ((members ([] : List Pt) j).map f).sum = 0 := by
      intro j _
      rfl
    rw [sumOver_congr h0, sumOver_zero_fun]
    rfl
  | cons p rest ih =>
    intro hass
    obtain ⟨jp, hjp, hjplt⟩ := hass p (List.mem_cons_self p rest)
    have hrest := fun q hq => hass q (List.mem_cons_of_mem p hq)
    have hsplit : ∀ j, j < ks → ((members (p :: rest) j).map f).sum =
        (fun j => if j = jp then f p + ((members rest j).map f).sum
          else ((members rest j).map f).sum) j := by
      intro j _
      show ((members (p :: rest) j).map f).sum =
        if j = jp then f p + ((members rest j).map f).sum else ((members rest j).map f).sum
      rw [members_cons p rest jp hjp j]
      by_cases hj : j = jp
      · rw [if_pos hj, if_pos hj]
        rfl
      · rw [if_neg hj, if_neg hj]
    rw [sumOver_congr hsplit, sumOver_insert hjplt]
    show f p + (rest.map f).sum = _
    rw [ih hrest]


theorem ssd_fun_eq (pts : List Pt) (cents : List Cent) :
    sumSquaredDifferences pts cents =
      (pts.map (fun p => dist2 p.x p.y (cents.getD (p.k.getD 0) default).x
        (cents.getD (p.k.getD 0) default).y)).sum := rfl


/-- Updating the centroids from the current assignment never increases
the distortion: each nonempty cluster's centroid moves to the cluster
mean, which minimizes the cluster's summed squared distances. -/
theorem ssd_update_le (pts : List Pt) (cents : List Cent) (ks : ℕ)
    (hlen : cents.length = ks)
    (hass : ∀ p ∈ pts, ∃ j, p.k = some j ∧ j < ks) :
    sumSquaredDifferences pts (updateCents pts 0 cents) ≤ sumSquaredDifferences pts cents := by
  rw [ssd_fun_eq, ssd_fun_eq, map_sum_split _ ks pts hass, map_sum_split _ ks pts hass]
  apply sumOver_le
  intro j hj
  by_cases hmem : members pts j = []
  · rw [hmem]
    exact le_refl _
  · have hjlen : j < cents.length := by rw [hlen]; exact hj
    have hupd := updateCents_getD pts cents 0 j hjlen
    simp only [Nat.zero_add] at hupd
    have hn : 0 < (members pts j).length := List.length_pos.mpr hmem
    rw [if_pos hn] at hupd
    have hLHS : ((members pts j).map (fun p => dist2 p.x p.y
        ((updateCents pts 0 cents).getD (p.k.getD 0) default).x
        ((updateCents pts 0 cents).getD (p.k.getD 0) default).y)).sum =
        ((members pts j).map (fun p => dist2 p.x p.y
          (((members pts j).map Pt.x).sum / (members pts j).length)
          (((members pts j).map Pt.y).sum / (members pts j).length))).sum := by
      apply congrArg
      apply List.map_congr_left
      intro q hq
      rw [members_k hq]
      show dist2 q.x q.y ((updateCents pts 0 cents).getD j default).x
        ((updateCents pts 0 cents).getD j default).y = _
      rw [hupd]
    have hRHS : ((members pts j).map (fun p => dist2 p.x p.y
        (cents.getD (p.k.getD 0) default).x (cents.getD (p.k.getD 0) default).y)).sum =
        ((members pts j).map (fun p => dist2 p.x p.y (cents.getD j default).x
          (cents.getD j default).y)).sum := by
      apply congrArg
      apply List.map_congr_left
      intro q hq
      rw [members_k hq]
      rfl
    rw [hLHS, hRHS]
    exact cluster_mean_min (members pts j) hmem _ _


/-- The distortion after an update does not depend on the pre-update
centroid coordinates: every assigned cluster is nonempty and gets its
mean either way. -/
theorem ssd_update_indep (pts : List Pt) (c1 c2 : List Cent) (ks : ℕ)
    (h1 : c1.length = ks) (h2 : c2.length = ks)
    (hass : ∀ p ∈ pts, ∃ j, p.k = some j ∧ j < ks) :
    sumSquaredDifferences pts (updateCents pts 0 c1) =
      sumSquaredDifferences pts (updateCents pts 0 c2) := by
  rw [ssd_fun_eq, ssd_fun_eq, map_sum_split _ ks pts hass, map_sum_split _ ks pts hass]
  apply sumOver_congr
  intro j hj
  by_cases hmem : members pts j = []
  · rw [hmem]
    rfl
  · have hn : 0 < (members pts j).length := List.length_pos.mpr hmem
    have hu1 := updateCents_getD pts c1 0 j (by rw [h1]; exact hj)
    have hu2 := updateCents_getD pts c2 0 j (by rw [h2]; exact hj)
    simp only [Nat.zero_add] at hu1 hu2
    rw [if_pos hn] at hu1 hu2
    apply congrArg
    apply List.map_congr_left
    intro q hq
    rw [members_k hq]
    show dist2 q.x q.y ((updateCents pts 0 c1).getD j default).x
      ((updateCents pts 0 c1).getD j default).y = dist2 q.x q.y
      ((updateCents pts 0 c2).getD j default).x ((updateCents pts 0 c2).getD j default).y
    rw [hu1, hu2]


theorem ssd_eq_assigned (pts : List Pt) (cents : List Cent) :
    sumSquaredDifferences pts cents = (pts.map (distToAssigned cents)).sum := rfl


theorem ssd_assign_eq (cents : List Cent) (pts : List Pt) (hne : cents ≠ [])
    (hidx : centsIdx cents) :
    sumSquaredDifferences (passAssign cents pts).1 cents =
      (pts.map (distToClosest cents)).sum := by
  rw [ssd_eq_assigned, passAssign_map, List.map_map]
  apply congrArg
  apply List.map_congr_left
  intro p _
  show distToAssigned cents ⟨p.x, p.y, some (closest p cents).k⟩ = distToClosest cents p
  show dist2 p.x p.y (cents.getD (closest p cents).k default).x
    (cents.getD (closest p cents).k default).y = distToClosest cents p
  rw [(closest_pos p cents hne hidx).2]
  rfl


theorem distToClosest_le (cents : List Cent) (p : Pt)
    (hk : ∃ j, p.k = some j ∧ j < cents.length) (hne : cents ≠ []) :
    distToClosest cents p ≤ distToAssigned cents p := by
  obtain ⟨j, hj, hjl⟩ := hk
  show dist2 p.x p.y (closest p cents).x (closest p cents).y ≤
    dist2 p.x p.y (cents.getD (p.k.getD 0) default).x (cents.getD (p.k.getD 0) default).y
  rw [hj]
  exact closest_min p cents hne j hjl


theorem passAssign_assigned (cents : List Cent) (pts : List Pt) (hne : cents ≠ [])
    (hidx : centsIdx cents) :
    ∀ q ∈ (passAssign cents pts).1, ∃ j, q.k = some j ∧ j < cents.length := by
  intro q hq
  rw [passAssign_map] at hq
  obtain ⟨p, hp, rfl⟩ := List.mem_map.mp hq
  exact ⟨(closest p cents).k, rfl, (closest_pos p cents hne hidx).1⟩


/-- One Lloyd pass from a position-labelled centroid list re-establishes
the pass invariant. -/
theorem pass_inv (pts : List Pt) (cents : List Cent) (ks : ℕ)
    (hlen : cents.length = ks) (hks : 1 ≤ ks) (hidx : centsIdx cents) :
    PassInv ks (kmeansPass pts cents).1 (kmeansPass pts cents).2.1 := by
  have hne : cents ≠ [] := by
    intro hc
    rw [hc] at hlen
    simp only [List.length_nil] at hlen
    omega
  refine ⟨?_, hks, ?_, ?_, cents, hlen, rfl⟩
  · show (updateCents (kmeansPass pts cents).1 0 cents).length = ks
    rw [updateCents_length]
    exact hlen
  · intro i hi
    have hilen : i < cents.length := by
      have h2 : (kmeansPass pts cents).2.1.length = cents.length :=
        updateCents_length (kmeansPass pts cents).1 cents 0
      omega
    show ((updateCents (kmeansPass pts cents).1 0 cents).getD i default).k = i
    rw [updateCents_getD _ cents 0 i hilen]
    by_cases hn : 0 < (members (kmeansPass pts cents).1 (0 + i)).length
    · rw [if_pos hn]
      exact hidx i hilen
    · rw [if_neg hn]
      exact hidx i hilen
  · intro q hq
    obtain ⟨j, hj, hjl⟩ := passAssign_assigned cents pts hne hidx q hq
    refine ⟨j, hj, ?_⟩
    rw [← hlen]
    exact hjl


/-- The key measure argument: a Lloyd pass that changes some assignment
strictly decreases (distortion, sum of assigned ids) lexicographically.
The distortion chain is reassignment ≤ (each point moves to a closest
centroid) followed by update ≤ (each cluster mean minimizes its summed
squared distances); in the all-ties case every moving point moves at
equal distance to a strictly smaller position, so the id sum drops. -/
theorem pass_measure_lt (pts : List Pt) (cents : List Cent) (ks : ℕ)
    (hinv : PassInv ks pts cents)
    (hflag : (kmeansPass pts cents).2.2 = true) :
    lexLt (measureK ks (kmeansPass pts cents).1) (measureK ks pts) := by
  obtain ⟨hlen, hks, hidx, hass, c0, hc0len, hc0⟩ := hinv
  have hne : cents ≠ [] := by
    intro hc
    rw [hc] at hlen
    simp only [List.length_nil] at hlen
    omega
  have hpts' : (kmeansPass pts cents).1 = (passAssign cents pts).1 := rfl
  have hass' : ∀ q ∈ (kmeansPass pts cents).1, ∃ j, q.k = some j ∧ j < ks := by
    intro q hq
    obtain ⟨j, hj, hjl⟩ := passAssign_assigned cents pts hne hidx q hq
    refine ⟨j, hj, ?_⟩
    rw [← hlen]
    exact hjl
  have h1 : phiM ks pts = sumSquaredDifferences pts cents := by
    show sumSquaredDifferences pts (updateCents pts 0 (dummyCents ks)) = _
    rw [hc0]
    exact ssd_update_indep pts (dummyCents ks) c0 ks (by simp [dummyCents]) hc0len hass
  have hptle : ∀ p ∈ pts, distToClosest cents p ≤ distToAssigned cents p := by
    intro p hp
    obtain ⟨j, hj, hjl⟩ := hass p hp
    refine distToClosest_le cents p ⟨j, hj, ?_⟩ hne
    rw [hlen]
    exact hjl
  have h2 : sumSquaredDifferences (kmeansPass pts cents).1 cents ≤
      sumSquaredDifferences pts cents := by
    rw [hpts', ssd_assign_eq cents pts hne hidx, ssd_eq_assigned]
    exact List.sum_le_sum hptle
  have h3 : phiM ks (kmeansPass pts cents).1 ≤
      sumSquaredDifferences (kmeansPass pts cents).1 cents := by
    show sumSquaredDifferences _ (updateCents _ 0 (dummyCents ks)) ≤ _
    calc sumSquaredDifferences (kmeansPass pts cents).1
          (updateCents (kmeansPass pts cents).1 0 (dummyCents ks))
        = sumSquaredDifferences (kmeansPass pts cents).1
            (updateCents (kmeansPass pts cents).1 0 cents) :=
          ssd_update_indep _ (dummyCents ks) cents ks (by simp [dummyCents]) hlen hass'
      _ ≤ sumSquaredDifferences (kmeansPass pts cents).1 cents :=
          ssd_update_le _ cents ks hlen hass'
  have hphile : phiM ks (kmeansPass pts cents).1 ≤ phiM ks pts := by
    rw [h1]
    exact le_trans h3 h2
  show phiM ks (kmeansPass pts cents).1 < phiM ks pts ∨
    (phiM ks (kmeansPass pts cents).1 = phiM ks pts ∧
      sumKs (kmeansPass pts cents).1 < sumKs pts)
  by_cases heq : phiM ks (kmeansPass pts cents).1 = phiM ks pts
  · right
    refine ⟨heq, ?_⟩
    have he2 : sumSquaredDifferences (kmeansPass pts cents).1 cents =
        sumSquaredDifferences pts cents := by
      apply le_antisymm h2
      calc sumSquaredDifferences pts cents = phiM ks pts := h1.symm
        _ = phiM ks (kmeansPass pts cents).1 := heq.symm
        _ ≤ _ := h3
    have hsumeq : (pts.map (distToClosest cents)).sum =
        (pts.map (distToAssigned cents)).sum := by
      have h4 := he2
      rw [hpts', ssd_assign_eq cents pts hne hidx, ssd_eq_assigned] at h4
      exact h4
    have hpteq := map_sum_eq_pointwise hptle hsumeq
    have hptk : ∀ p ∈ pts, (closest p cents).k ≤ p.k.getD 0 := by
      intro p hp
      obtain ⟨j, hj, hjl⟩ := hass p hp
      rw [hj]
      show (closest p cents).k ≤ j
      by_contra hlt
      push_neg at hlt
      have hjlen : j < cents.length := by
        rw [hlen]
        exact hjl
      have hfirst := closest_first p cents hne hidx j hlt
      have h5 : distToAssigned cents p =
          dist2 p.x p.y (cents.getD j default).x (cents.getD j default).y := by
        show dist2 p.x p.y (cents.getD (p.k.getD 0) default).x
          (cents.getD (p.k.getD 0) default).y = _
        rw [hj]
        rfl
      have h6 : dist2 p.x p.y (closest p cents).x (closest p cents).y =
          dist2 p.x p.y (cents.getD j default).x (cents.getD j default).y := by
        calc dist2 p.x p.y (closest p cents).x (closest p cents).y
            = distToClosest cents p := rfl
          _ = distToAssigned cents p := hpteq p hp
          _ = _ := h5
      linarith
    obtain ⟨p0, hp0, hp0ne⟩ := passAssign_flag_true cents pts hflag
    obtain ⟨j0, hj0, hj0l⟩ := hass p0 hp0
    have hstrict : (closest p0 cents).k < j0 := by
      have hle : (closest p0 cents).k ≤ j0 := by
        have h7 := hptk p0 hp0
        rw [hj0] at h7
        exact h7
      have hnej : (closest p0 cents).k ≠ j0 := by
        intro hc
        apply hp0ne
        rw [hj0, hc]
      omega
    show sumKs (kmeansPass pts cents).1 < sumKs pts
    unfold sumKs
    rw [hpts', passAssign_map, List.map_map]
    have hfun : ((fun p : Pt => p.k.getD 0) ∘
        (fun p : Pt => (⟨p.x, p.y, some (closest p cents).k⟩ : Pt))) =
        fun p : Pt => (closest p cents).k := rfl
    rw [hfun]
    apply List.sum_lt_sum (fun p : Pt => (closest p cents).k) (fun p : Pt => p.k.getD 0) hptk
    refine ⟨p0, hp0, ?_⟩
    rw [hj0]
    exact hstrict
  · left
    exact lt_of_le_of_ne hphile heq


/-! ### From the measure to a decreasing rank -/

theorem lexLt_trans {a b c : ℚ × ℕ} (h1 : lexLt a b) (h2 : lexLt b c) : lexLt a c := by
  unfold lexLt at h1 h2 ⊢
  rcases h1 with h1 | ⟨he1, h1⟩ <;> rcases h2 with h2 | ⟨he2, h2⟩
  · exact Or.inl (lt_trans h1 h2)
  · exact Or.inl (by rw [← he2]; exact h1)
  · exact Or.inl (by rw [he1]; exact h2)
  · exact Or.inr ⟨he1.trans he2, lt_trans h1 h2⟩


theorem lexLt_irrefl (a : ℚ × ℕ) : ¬ lexLt a a := by
  unfold lexLt
  rintro (h | ⟨-, h⟩)
  · exact absurd h (lt_irrefl _)
  · exact absurd h (lt_irrefl _)


theorem withKs_map_coords (f : Pt → Pt) (hc : ∀ p, (f p).x = p.x ∧ (f p).y = p.y) :
    ∀ (pts : List Pt) (v : List ℕ), withKs (pts.map f) v = withKs pts v := by
  intro pts
  induction pts with
  | nil => intro v; rfl
  | cons p ps ih =>
    intro v
    cases v with
    | nil => rfl
    | cons j js =>
      show (⟨(f p).x, (f p).y, some j⟩ : Pt) :: withKs (ps.map f) js =
        (⟨p.x, p.y, some j⟩ : Pt) :: withKs ps js
      rw [(hc p).1, (hc p).2, ih js]


theorem withKs_assign (cents : List Cent) :
    ∀ pts : List Pt, withKs pts (pts.map (fun p => (closest p cents).k)) =
      pts.map (fun p => (⟨p.x, p.y, some (closest p cents).k⟩ : Pt)) := by
  intro pts
  induction pts with
  | nil => rfl
  | cons p ps ih =>
    show (⟨p.x, p.y, some (closest p cents).k⟩ : Pt) ::
      withKs ps (ps.map (fun p => (closest p cents).k)) = _
    rw [ih]
    rfl


theorem mem_allVecs : ∀ (v : List ℕ) (ks : ℕ), (∀ j ∈ v, j < ks) → v ∈ allVecs v.length ks := by
  intro v
  induction v with
  | nil =>
    intro ks _
    exact List.mem_singleton.mpr rfl
  | cons j t ih =>
    intro ks hv
    show j :: t ∈
      ((List.range ks).map (fun i => (allVecs t.length ks).map (fun w => i :: w))).flatten
    apply List.mem_flatten.mpr
    refine ⟨(allVecs t.length ks).map (fun w => j :: w), ?_, ?_⟩
    · exact List.mem_map.mpr
        ⟨j, List.mem_range.mpr (hv j (List.mem_cons_self j t)), rfl⟩
    · exact List.mem_map.mpr
        ⟨t, ih ks (fun i hi => hv i (List.mem_cons_of_mem j hi)), rfl⟩


/-- A changing pass strictly decreases the rank (the count of assignment
vectors whose measure lies below the current one). -/
theorem rank_lt (pts : List Pt) (cents : List Cent) (ks : ℕ)
    (hinv : PassInv ks pts cents)
    (hflag : (kmeansPass pts cents).2.2 = true) :
    rankM ks (kmeansPass pts cents).1 < rankM ks pts := by
  have hlt := pass_measure_lt pts cents ks hinv hflag
  obtain ⟨hlen, hks, hidx, hass, -⟩ := hinv
  have hne : cents ≠ [] := by
    intro hc
    rw [hc] at hlen
    simp only [List.length_nil] at hlen
    omega
  have hpts' : (kmeansPass pts cents).1 =
      pts.map (fun p => (⟨p.x, p.y, some (closest p cents).k⟩ : Pt)) :=
    passAssign_map cents pts
  have hlen' : (kmeansPass pts cents).1.length = pts.length := by
    rw [hpts', List.length_map]
  have hwk : ∀ v, withKs (kmeansPass pts cents).1 v = withKs pts v := by
    intro v
    rw [hpts']
    exact withKs_map_coords (fun p => (⟨p.x, p.y, some (closest p cents).k⟩ : Pt))
      (fun p => ⟨rfl, rfl⟩) pts v
  unfold rankM
  rw [hlen']
  apply countP_lt_countP
  · intro v hv hP
    simp only [decide_eq_true_eq] at hP ⊢
    rw [hwk v] at hP
    exact lexLt_trans hP hlt
  · refine ⟨pts.map (fun p => (closest p cents).k), ?_, ?_, ?_⟩
    · have hlv : (pts.map (fun p => (closest p cents).k)).length = pts.length :=
        List.length_map _ _
      rw [← hlv]
      apply mem_allVecs
      intro j hj
      obtain ⟨p, hp, rfl⟩ := List.mem_map.mp hj
      rw [← hlen]
      exact (closest_pos p cents hne hidx).1
    · simp only [decide_eq_true_eq]
      rw [withKs_assign cents pts, ← hpts']
      exact hlt
    · simp only [decide_eq_false_iff_not]
      rw [hwk, withKs_assign cents pts, ← hpts']
      exact lexLt_irrefl _


/-- The Lloyd loop returns within rank-many passes once the invariant
holds. -/
theorem kmeansLoop_inv (ks : ℕ) :
    ∀ (r : ℕ) (pts : List Pt) (cents : List Cent),
      PassInv ks pts cents → rankM ks pts ≤ r →
      ∀ fuel, r + 1 ≤ fuel → (kmeansLoop fuel pts cents).isSome = true := by
  intro r
  induction r with
  | zero =>
    intro pts cents hinv hr fuel hfuel
    cases fuel with
    | zero => omega
    | succ f =>
      have hstep : kmeansLoop (f + 1) pts cents =
          if (kmeansPass pts cents).2.2 = true then
            kmeansLoop f (kmeansPass pts cents).1 (kmeansPass pts cents).2.1
          else some ((kmeansPass pts cents).1, (kmeansPass pts cents).2.1) := rfl
      by_cases hflag : (kmeansPass pts cents).2.2 = true
      · exact absurd (rank_lt pts cents ks hinv hflag) (by omega)
      · rw [hstep, if_neg hflag]
        rfl
  | succ r ih =>
    intro pts cents hinv hr fuel hfuel
    cases fuel with
    | zero => omega
    | succ f =>
      have hstep : kmeansLoop (f + 1) pts cents =
          if (kmeansPass pts cents).2.2 = true then
            kmeansLoop f (kmeansPass pts cents).1 (kmeansPass pts cents).2.1
          else some ((kmeansPass pts cents).1, (kmeansPass pts cents).2.1) := rfl
      by_cases hflag : (kmeansPass pts cents).2.2 = true
      · rw [hstep, if_pos hflag]
        have hinv' : PassInv ks (kmeansPass pts cents).1 (kmeansPass pts cents).2.1 := by
          obtain ⟨hlen, hks, hidx, -⟩ := hinv
          exact pass_inv pts cents ks hlen hks hidx
        have hr' : rankM ks (kmeansPass pts cents).1 ≤ r := by
          have := rank_lt pts cents ks hinv hflag
          omega
        exact ih (kmeansPass pts cents).1 (kmeansPass pts cents).2.1 hinv' hr' f (by omega)
      · rw [hstep, if_neg hflag]
        rfl


/-- Explicit fuel sufficing for the Lloyd loop from any position-labelled
centroid list: one pass establishes the invariant, then the rank (bounded
by the number of assignment vectors) decreases at every further pass. -/
theorem kmeansLoop_terminates (pts : List Pt) (cents : List Cent) (ks : ℕ)
    (hlen : cents.length = ks) (hks : 1 ≤ ks) (hidx : centsIdx cents) :
    (kmeansLoop ((allVecs pts.length ks).length + 2) pts cents).isSome = true := by
  have hstep : kmeansLoop ((allVecs pts.length ks).length + 2) pts cents =
      if (kmeansPass pts cents).2.2 = true then
        kmeansLoop ((allVecs pts.length ks).length + 1) (kmeansPass pts cents).1
          (kmeansPass pts cents).2.1
      else some ((kmeansPass pts cents).1, (kmeansPass pts cents).2.1) := rfl
  by_cases hflag : (kmeansPass pts cents).2.2 = true
  · rw [hstep, if_pos hflag]
    have hinv' := pass_inv pts cents ks hlen hks hidx
    have hlen' : (kmeansPass pts cents).1.length = pts.length := by
      have h := congrArg List.length (passAssign_map cents pts)
      rw [List.length_map] at h
      exact h
    have hrank : rankM ks (kmeansPass pts cents).1 ≤ (allVecs pts.length ks).length := by
      unfold rankM
      rw [hlen']
      exact List.countP_le_length _
    exact kmeansLoop_inv ks ((allVecs pts.length ks).length) (kmeansPass pts cents).1
      (kmeansPass pts cents).2.1 hinv' hrank ((allVecs pts.length ks).length + 1) (by omega)
  · rw [hstep, if_neg hflag]
    rfl


/-- C9.  Both loops terminate.  The herd simulation loop always returns
within `IT_MAX + 2` steps from any state: once the iteration counter
exceeds the hard ceiling the exit test fires unconditionally.  The Lloyd
iteration loop of the grouping engine returns for some finite fuel from
every point list and every centroid list whose entries carry their
positions as cluster ids (every list the source hands to `kmeans`):
each pass that changes an assignment strictly decreases the pair
(distortion, sum of assigned cluster ids) lexicographically over the
finitely many assignment vectors. -/
theorem loops_terminate :
    (∀ (P : HerdParams) (s : HerdState), (simLoop P (IT_MAX + 2) s).isSome = true) ∧
    (∀ (pts : List Pt) (cents : List Cent) (ks : ℕ),
      cents.length = ks → 1 ≤ ks → centsIdx cents →
      ∃ fuel, (kmeansLoop fuel pts cents).isSome = true) := by
  constructor
  · intro P s
    exact simLoop_terminates P (IT_MAX + 2) s (by omega) (by omega)
  · intro pts cents ks hlen hks hidx
    exact ⟨(allVecs pts.length ks).length + 2,
      kmeansLoop_terminates pts cents ks hlen hks hidx⟩


/-- C9, witness: the bounds of `loops_terminate` instantiated on an
empty herd state and a one-point, one-centroid grouping call. -/
theorem loops_terminate_witness :
    (simLoop (herdDefaults 1) (IT_MAX + 2) ⟨[], [], [], [], [], 0, none, 0⟩).isSome = true ∧
    ∃ fuel, (kmeansLoop fuel [(⟨0, 0, none⟩ : Pt)] [(⟨0, 0, 0, 0⟩ : Cent)]).isSome = true :=
  ⟨loops_terminate.1 (herdDefaults 1) ⟨[], [], [], [], [], 0, none, 0⟩,
   loops_terminate.2 [⟨0, 0, none⟩] [⟨0, 0, 0, 0⟩] 1 rfl (le_refl 1)
     (fun i hi => by
        have h0 : i = 0 := by
          simp only [List.length_singleton] at hi
          omega
        subst h0
        rfl)⟩


theorem headI_mem_pt (s : List Pt) (h : s ≠ []) : s.headI ∈ s := by
  cases s with
  | nil => exact absurd rfl h
  | cons a t => exact List.mem_cons_self a t


/-- C10.  With normalization enabled, `dairy.group.get` hands the
caller's array to `doNormalize`, which sorts the caller's array itself
to locate the axis extrema: afterwards the array is reordered (sorted
ascending by the `y` coordinate) and every record's `x` and `y` have
been overwritten with their min-max-normalized values — it is a
permutation of the min-max-normalized original records. -/
theorem doNormalize_spec (pts : List Pt) (h : pts ≠ []) :
    List.Pairwise ptLeY (doNormalize pts) ∧
    ∃ xm xM ym yM : ℚ,
      ((∃ p ∈ pts, p.x = xm) ∧ ∀ p ∈ pts, xm ≤ p.x) ∧
      ((∃ p ∈ pts, p.x = xM) ∧ ∀ p ∈ pts, p.x ≤ xM) ∧
      ((∃ p ∈ pts, p.y = ym) ∧ ∀ p ∈ pts, ym ≤ p.y) ∧
      ((∃ p ∈ pts, p.y = yM) ∧ ∀ p ∈ pts, p.y ≤ yM) ∧
      (doNormalize pts).Perm (pts.map (fun p =>
        (⟨(p.x - xm) / (xM - xm), (p.y - ym) / (yM - ym), p.k⟩ : Pt))) := by
  have hXperm : (List.insertionSort ptLeX pts).Perm pts := List.perm_insertionSort ptLeX pts
  have hYpermX : (List.insertionSort ptLeY (List.insertionSort ptLeX pts)).Perm
      (List.insertionSort ptLeX pts) := List.perm_insertionSort ptLeY _
  have hYperm := hYpermX.trans hXperm
  have hXsorted : List.Pairwise ptLeX (List.insertionSort ptLeX pts) :=
    List.sorted_insertionSort ptLeX pts
  have hYsorted : List.Pairwise ptLeY (List.insertionSort ptLeY (List.insertionSort ptLeX pts)) :=
    List.sorted_insertionSort ptLeY _
  have hXne : List.insertionSort ptLeX pts ≠ [] := by
    intro h0
    exact h (List.Perm.eq_nil (h0 ▸ hXperm.symm))
  have hYne : List.insertionSort ptLeY (List.insertionSort ptLeX pts) ≠ [] := by
    intro h0
    exact h (List.Perm.eq_nil (h0 ▸ hYperm.symm))
  set xm := (List.insertionSort ptLeX pts).headI.x with hxm
  set xM := ((List.insertionSort ptLeX pts).getLastD default).x with hxM
  set ym := (List.insertionSort ptLeY (List.insertionSort ptLeX pts)).headI.y with hym
  set yM := ((List.insertionSort ptLeY (List.insertionSort ptLeX pts)).getLastD default).y
    with hyM
  have hdn : doNormalize pts =
      (List.insertionSort ptLeY (List.insertionSort ptLeX pts)).map
        (fun p => (⟨(p.x - xm) / (xM - xm), (p.y - ym) / (yM - ym), p.k⟩ : Pt)) := rfl
  have hymyM : ym ≤ yM := by
    have hmem := headI_mem_pt _ hYne
    exact pairwise_ptLeY_getLastD hYsorted _ hmem
  have hmono : ∀ a b : Pt, ptLeY a b →
      ptLeY (⟨(a.x - xm) / (xM - xm), (a.y - ym) / (yM - ym), a.k⟩ : Pt)
            (⟨(b.x - xm) / (xM - xm), (b.y - ym) / (yM - ym), b.k⟩ : Pt) := by
    intro a b hab
    show (a.y - ym) / (yM - ym) ≤ (b.y - ym) / (yM - ym)
    rcases eq_or_lt_of_le hymyM with heq | hlt
    · rw [← heq, sub_self, div_zero, div_zero]
    · have hd : 0 < yM - ym := by linarith
      exact (div_le_div_iff_of_pos_right hd).mpr (by exact sub_le_sub_right hab ym)
  constructor
  · rw [hdn]
    exact List.Pairwise.map _ hmono hYsorted
  · refine ⟨xm, xM, ym, yM, ⟨⟨_, hXperm.subset (headI_mem_pt _ hXne), rfl⟩, ?_⟩,
      ⟨⟨_, hXperm.subset (getLastD_mem _ default hXne), rfl⟩, ?_⟩,
      ⟨⟨_, hYperm.subset (headI_mem_pt _ hYne), rfl⟩, ?_⟩,
      ⟨⟨_, hYperm.subset (getLastD_mem _ default hYne), rfl⟩, ?_⟩, ?_⟩
    · intro p hp
      exact pairwise_ptLeX_headI hXsorted p (hXperm.mem_iff.mpr hp)
    · intro p hp
      exact pairwise_ptLeX_getLastD hXsorted p (hXperm.mem_iff.mpr hp)
    · intro p hp
      exact pairwise_ptLeY_headI hYsorted p (hYperm.mem_iff.mpr hp)
    · intro p hp
      exact pairwise_ptLeY_getLastD hYsorted p (hYperm.mem_iff.mpr hp)
    · rw [hdn]
      exact hYperm.map _


/-- C10, witness: a two-point list, normalized. -/
theorem doNormalize_spec_witness :
    ([⟨4, 1, none⟩, ⟨0, 3, none⟩] : List Pt) ≠ [] ∧
    List.Pairwise ptLeY (doNormalize [⟨4, 1, none⟩, ⟨0, 3, none⟩]) := by
  have h : ([⟨4, 1, none⟩, ⟨0, 3, none⟩] : List Pt) ≠ [] := by
    intro h0
    cases h0
  exact ⟨h, (doNormalize_spec [⟨4, 1, none⟩, ⟨0, 3, none⟩] h).1⟩


/-! ### The best-run claim of `dairy.group.get` is false -/

theorem runsLoop_step (ks fuel count run : ℕ) (o : ℕ → KppOracle) (pts : List Pt)
    (acc : List (ℚ × List (ℚ × ℚ))) :
    runsLoop ks o fuel (count + 1) run pts acc =
      match kmeansLoop fuel pts (kmeansplusplus pts ks (o run)) with
      | none => none
      | some (pts2, cents2) =>
        runsLoop ks o fuel count (run + 1) pts2
          (acc ++ [(sumSquaredDifferences pts2 cents2,
            (kmeansplusplus pts ks (o run)).map (fun c => (c.x, c.y)))]) := rfl

theorem groupGet_eq (data : List Pt) (ks runs : ℕ) (o : ℕ → KppOracle) (fuel : ℕ) :
    groupGet data ks runs false o fuel =
      match runsLoop ks o fuel runs 0 data [] with
      | none => none
      | some (pts1, results) =>
        match kmeansLoop fuel pts1
            (rebuildCents 0 (List.insertionSort resLe results).headI.2) with
        | none => none
        | some (pts2, cents2) => some (sumSquaredDifferences pts2 cents2, pts2) := rfl

theorem cex_kpp_run0 : kmeansplusplus cexData 3 (cexOracle 0) =
    [⟨9, 0, 0, 0⟩, ⟨9, 0, 1, 0⟩, ⟨0, 0, 2, 0⟩] := by
  norm_num [cexData, cexOracle, kmeansplusplus, kppGrow, kppTries, kppTry, scanIdx,
    relabelCents, List.insertionSort, List.orderedInsert, xDesc, dist2, List.range_succ]

theorem cex_lloyd_run0 : kmeansLoop 5 cexData [⟨9, 0, 0, 0⟩, ⟨9, 0, 1, 0⟩, ⟨0, 0, 2, 0⟩] =
    some (ptsRun0, [⟨18, 0, 0, 1⟩, ⟨26/3, 0, 1, 3⟩, ⟨-1, 0, 2, 2⟩]) := by
  norm_num [cexData, ptsRun0, kmeansLoop, kmeansPass, passAssign, closest, updateCents,
    members, List.insertionSort, List.orderedInsert, distLe, dist2, List.filter]
  exact fun h => nomatch h

theorem cex_kpp_run1 : kmeansplusplus ptsRun0 3 (cexOracle 1) =
    [⟨18, 0, 0, 0⟩, ⟨0, 0, 1, 0⟩, ⟨-2, 0, 2, 0⟩] := by
  norm_num [ptsRun0, cexOracle, kmeansplusplus, kppGrow, kppTries, kppTry, scanIdx,
    relabelCents, List.insertionSort, List.orderedInsert, xDesc, dist2, List.range_succ]

theorem cex_lloyd_run1 : kmeansLoop 5 ptsRun0 [⟨18, 0, 0, 0⟩, ⟨0, 0, 1, 0⟩, ⟨-2, 0, 2, 0⟩] =
    some (ptsRun1, [⟨11, 0, 0, 4⟩, ⟨4, 0, 1, 0⟩, ⟨-1, 0, 2, 2⟩]) := by
  norm_num [ptsRun0, ptsRun1, kmeansLoop, kmeansPass, passAssign, closest, updateCents,
    members, List.insertionSort, List.orderedInsert, distLe, dist2, List.filter]

theorem cex_runs : runsLoop 3 cexOracle 5 2 0 cexData [] =
    some (ptsRun1, [(8/3, [((9:ℚ), (0:ℚ)), (9, 0), (0, 0)]),
                    (68, [((18:ℚ), (0:ℚ)), (0, 0), (-2, 0)])]) := by
  rw [show (2:ℕ) = 1 + 1 from rfl, runsLoop_step, cex_kpp_run0, cex_lloyd_run0]
  show runsLoop 3 cexOracle 5 1 1 ptsRun0
    ([] ++ [(sumSquaredDifferences ptsRun0 [⟨18, 0, 0, 1⟩, ⟨26/3, 0, 1, 3⟩, ⟨-1, 0, 2, 2⟩],
      List.map (fun c => (c.x, c.y)) [(⟨9, 0, 0, 0⟩ : Cent), ⟨9, 0, 1, 0⟩, ⟨0, 0, 2, 0⟩])]) = _
  have hssd0 : sumSquaredDifferences ptsRun0
      [⟨18, 0, 0, 1⟩, ⟨26/3, 0, 1, 3⟩, ⟨-1, 0, 2, 2⟩] = 8/3 := by
    norm_num [ptsRun0, sumSquaredDifferences]
  rw [hssd0]
  rw [show (1:ℕ) = 0 + 1 from rfl, runsLoop_step, cex_kpp_run1, cex_lloyd_run1]
  show runsLoop 3 cexOracle 5 0 2 ptsRun1 _ = _
  have hssd1 : sumSquaredDifferences ptsRun1
      [⟨11, 0, 0, 4⟩, ⟨4, 0, 1, 0⟩, ⟨-1, 0, 2, 2⟩] = 68 := by
    norm_num [ptsRun1, sumSquaredDifferences]
  rw [hssd1]
  show some _ = _
  norm_num

theorem cex_lloyd_final : kmeansLoop 5 ptsRun1 [⟨9, 0, 0, 0⟩, ⟨9, 0, 1, 0⟩, ⟨0, 0, 2, 0⟩] =
    some (ptsRun1, [⟨11, 0, 0, 4⟩, ⟨9, 0, 1, 0⟩, ⟨-1, 0, 2, 2⟩]) := by
  norm_num [ptsRun1, kmeansLoop, kmeansPass, passAssign, closest, updateCents,
    members, List.insertionSort, List.orderedInsert, distLe, dist2, List.filter]

theorem cex_get : groupGet cexData 3 2 false cexOracle 5 = some (68, ptsRun1) := by
  rw [groupGet_eq, cex_runs]
  show (match kmeansLoop 5 ptsRun1 (rebuildCents 0 (List.insertionSort resLe
      [((8:ℚ)/3, [((9:ℚ), (0:ℚ)), (9, 0), (0, 0)]),
       ((68:ℚ), [((18:ℚ), (0:ℚ)), (0, 0), (-2, 0)])]).headI.2) with
    | none => none
    | some (pts2, cents2) => some (sumSquaredDifferences pts2 cents2, pts2)) = _
  have hsort : (List.insertionSort resLe
      [((8:ℚ)/3, [((9:ℚ), (0:ℚ)), (9, 0), (0, 0)]),
       ((68:ℚ), [((18:ℚ), (0:ℚ)), (0, 0), (-2, 0)])]).headI.2 =
      [((9:ℚ), (0:ℚ)), (9, 0), (0, 0)] := by
    norm_num [List.insertionSort, List.orderedInsert, resLe]
  rw [hsort]
  have hreb : rebuildCents 0 [((9:ℚ), (0:ℚ)), (9, 0), (0, 0)] =
      [⟨9, 0, 0, 0⟩, ⟨9, 0, 1, 0⟩, ⟨0, 0, 2, 0⟩] := by
    norm_num [rebuildCents]
  rw [hreb, cex_lloyd_final]
  show some _ = _
  have hssdF : sumSquaredDifferences ptsRun1
      [⟨11, 0, 0, 4⟩, ⟨9, 0, 1, 0⟩, ⟨-1, 0, 2, 2⟩] = 68 := by
    norm_num [ptsRun1, sumSquaredDifferences]
  rw [hssdF]

/-- C2, counterexample.  On `cexData` with `k = 3` and `runs = 2`, the
run loop records the distortions 8/3 (run 0) and 68 (run 1), but `get`
returns 68: the final re-run from run 0's seeds finds the leftover
assignments of run 1 already equal to the seed assignment, reports
convergence on its very first pass, and never reaches the improvement
run 0 itself had found. -/
theorem groupGet_claim_false : ¬ GroupBestClaim := by
  intro h
  have hv := h cexData 3 2 5 cexOracle ptsRun1 ptsRun1
    [((8:ℚ)/3, [((9:ℚ), (0:ℚ)), (9, 0), (0, 0)]),
     ((68:ℚ), [((18:ℚ), (0:ℚ)), (0, 0), (-2, 0)])]
    68 (by norm_num) (by norm_num) cex_runs cex_get
    ((8:ℚ)/3, [((9:ℚ), (0:ℚ)), (9, 0), (0, 0)])
    (List.mem_cons_self _ _)
  norm_num at hv

theorem bestCent_coords {a b : Pt} (hx : a.x = b.x) (hy : a.y = b.y) :
    ∀ l : List Cent, bestCent a l = bestCent b l := by
  intro l
  induction l with
  | nil => rfl
  | cons c cs ih =>
    unfold bestCent
    rw [ih, hx, hy]

theorem closest_coords {a b : Pt} (hx : a.x = b.x) (hy : a.y = b.y) (cents : List Cent) :
    closest a cents = closest b cents := by
  rw [closest_eq_bestCent, closest_eq_bestCent, bestCent_coords hx hy]

theorem passAssign_coords (cents : List Cent) :
    ∀ {pts pts' : List Pt},
      List.Forall₂ (fun a b : Pt => a.x = b.x ∧ a.y = b.y) pts pts' →
      (passAssign cents pts).1 = (passAssign cents pts').1 := by
  intro pts pts' hco
  rw [passAssign_map, passAssign_map]
  induction hco with
  | nil => rfl
  | cons hab htail ih =>
    simp only [List.map_cons]
    rw [ih]
    congr 1
    rw [hab.1, hab.2, closest_coords hab.1 hab.2]

/-- C2, amended.  The returned distortion can exceed a recorded one only
through the early convergence exhibited by `groupGet_claim_false`: as
long as the first Lloyd pass still changes some assignment (on both
leftover states), the outcome of the re-run is independent of the
leftover cluster assignments the previous runs left on the points — the
first pass recomputes every assignment from the coordinates alone, after
which the trajectories coincide. -/
theorem kmeansLoop_leftover_indep (pts pts' : List Pt) (cents : List Cent) (fuel : ℕ)
    (hco : List.Forall₂ (fun a b : Pt => a.x = b.x ∧ a.y = b.y) pts pts')
    (h1 : (kmeansPass pts cents).2.2 = true) (h1' : (kmeansPass pts' cents).2.2 = true) :
    kmeansLoop (fuel + 1) pts cents = kmeansLoop (fuel + 1) pts' cents := by
  have hmap : (passAssign cents pts).1 = (passAssign cents pts').1 :=
    passAssign_coords cents hco
  have hstep : kmeansLoop (fuel + 1) pts cents =
      if (kmeansPass pts cents).2.2 = true then
        kmeansLoop fuel (kmeansPass pts cents).1 (kmeansPass pts cents).2.1
      else some ((kmeansPass pts cents).1, (kmeansPass pts cents).2.1) := rfl
  have hstep' : kmeansLoop (fuel + 1) pts' cents =
      if (kmeansPass pts' cents).2.2 = true then
        kmeansLoop fuel (kmeansPass pts' cents).1 (kmeansPass pts' cents).2.1
      else some ((kmeansPass pts' cents).1, (kmeansPass pts' cents).2.1) := rfl
  rw [hstep, hstep', if_pos h1, if_pos h1']
  have e1 : (kmeansPass pts cents).1 = (kmeansPass pts' cents).1 := hmap
  have e2 : (kmeansPass pts cents).2.1 = (kmeansPass pts' cents).2.1 := by
    show updateCents (kmeansPass pts cents).1 0 cents =
      updateCents (kmeansPass pts' cents).1 0 cents
    rw [e1]
  rw [e1, e2]

/-- C2, witness: one unassigned point versus the same point carrying a
stale assignment; both first passes change the assignment and the Lloyd
results agree. -/
theorem kmeansLoop_leftover_indep_witness :
    List.Forall₂ (fun a b : Pt => a.x = b.x ∧ a.y = b.y)
      [(⟨0, 0, none⟩ : Pt)] [(⟨0, 0, some 5⟩ : Pt)] ∧
    (kmeansPass [(⟨0, 0, none⟩ : Pt)] [(⟨1, 0, 0, 0⟩ : Cent)]).2.2 = true ∧
    (kmeansPass [(⟨0, 0, some 5⟩ : Pt)] [(⟨1, 0, 0, 0⟩ : Cent)]).2.2 = true ∧
    kmeansLoop 4 [(⟨0, 0, none⟩ : Pt)] [(⟨1, 0, 0, 0⟩ : Cent)] =
      kmeansLoop 4 [(⟨0, 0, some 5⟩ : Pt)] [(⟨1, 0, 0, 0⟩ : Cent)] := by
  have hco : List.Forall₂ (fun a b : Pt => a.x = b.x ∧ a.y = b.y)
      [(⟨0, 0, none⟩ : Pt)] [(⟨0, 0, some 5⟩ : Pt)] :=
    List.Forall₂.cons ⟨rfl, rfl⟩ List.Forall₂.nil
  have h1 : (kmeansPass [(⟨0, 0, none⟩ : Pt)] [(⟨1, 0, 0, 0⟩ : Cent)]).2.2 = true := by
    norm_num [kmeansPass, passAssign, closest, List.insertionSort, List.orderedInsert,
      distLe, dist2]
    exact fun h => nomatch h
  have h1' : (kmeansPass [(⟨0, 0, some 5⟩ : Pt)] [(⟨1, 0, 0, 0⟩ : Cent)]).2.2 = true := by
    norm_num [kmeansPass, passAssign, closest, List.insertionSort, List.orderedInsert,
      distLe, dist2]
  exact ⟨hco, h1, h1',
    kmeansLoop_leftover_indep [(⟨0, 0, none⟩ : Pt)] [(⟨0, 0, some 5⟩ : Pt)]
      [(⟨1, 0, 0, 0⟩ : Cent)] 3 hco h1 h1'⟩

end DairyJs
